import Mathlib

/-!
Verification of the student-stats merge engine of
`src/etl/students_etl/load_mongo_stats.py`.

The embedding models Python `datetime` values at second precision
(`Time`), heterogeneous Mongo field values (`Val`), the stored lesson
dictionaries (`RawLesson`), the sanitized in-memory lesson entries
(`LessonEntry`), and the merge pipeline `process_student_messages`
(`process`), together with the batch aggregation (`aggregate_student_updates`,
`load`).  Fallible Python code (uncaught exceptions) is modelled with
`Except Unit`.
-/

namespace WAStats

/-- A Python `datetime` at second precision (microseconds are irrelevant to
every claim; Python orders datetimes lexicographically on their fields). -/
structure Time where
  year : Nat
  month : Nat
  day : Nat
  hour : Nat
  minute : Nat
  sec : Nat
deriving DecidableEq, Repr

/-- Linear key realising the lexicographic datetime order on valid field
ranges. -/
def Time.key (t : Time) : Nat :=
  ((((t.year * 13 + t.month) * 32 + t.day) * 24 + t.hour) * 60 + t.minute) * 60 + t.sec

/-- Valid Python datetime field ranges (Python's constructor enforces these;
day validity is approximated by `day ≤ 31`). -/
def Time.Valid (t : Time) : Prop :=
  1 ≤ t.year ∧ t.year ≤ 9999 ∧ 1 ≤ t.month ∧ t.month ≤ 12 ∧
  1 ≤ t.day ∧ t.day ≤ 31 ∧ t.hour ≤ 23 ∧ t.minute ≤ 59 ∧ t.sec ≤ 59

instance (t : Time) : Decidable t.Valid := by unfold Time.Valid; infer_instance

/-- Truncate a datetime to minute precision (what `format_timestamp` keeps). -/
def Time.truncMin (t : Time) : Time := { t with sec := 0 }


/-! ## Timestamp text -/

abbrev Str := List Char

/-- ASCII decimal digit test (`str.isdigit` restricted to ASCII, which is all
the repository's labels and timestamps use). -/
def isDig (c : Char) : Bool := '0' ≤ c && c ≤ '9'

/-- Value of an ASCII digit character. -/
def dval (c : Char) : Nat := c.toNat - '0'.toNat




/-- Two-digit zero-padded rendering (as `strftime` does for `%H %M %d %m`). -/
def pad2 (n : Nat) : Str := [Nat.digitChar (n / 10 % 10), Nat.digitChar (n % 10)]

/-- Four-digit year rendering (all years in the data are four-digit). -/
def pad4 (n : Nat) : Str :=
  [Nat.digitChar (n / 1000 % 10), Nat.digitChar (n / 100 % 10),
   Nat.digitChar (n / 10 % 10), Nat.digitChar (n % 10)]

/-- `format_timestamp`: `dt.strftime('%H:%M, %d.%m.%Y')`. -/
def format_timestamp (t : Time) : Str :=
  pad2 t.hour ++ ':' :: pad2 t.minute ++ ',' :: ' ' :: pad2 t.day ++
    '.' :: pad2 t.month ++ '.' :: pad4 t.year

/-- Read one or two digits, greedily (as `strptime`'s `%H/%M/%d/%m` do). -/
def read2 : Str → Option (Nat × Str)
  | c1 :: c2 :: rest =>
      if isDig c1 then
        if isDig c2 then some (dval c1 * 10 + dval c2, rest)
        else some (dval c1, c2 :: rest)
      else none
  | [c1] => if isDig c1 then some (dval c1, []) else none
  | [] => none

/-- Read up to four digits, greedily (as `strptime`'s `%Y` does). -/
def read4 (s : Str) : Option (Nat × Str) :=
  match s with
  | c1 :: rest1 =>
    if isDig c1 then
      match rest1 with
      | c2 :: rest2 =>
        if isDig c2 then
          match rest2 with
          | c3 :: rest3 =>
            if isDig c3 then
              match rest3 with
              | c4 :: rest4 =>
                if isDig c4 then
                  some (((dval c1 * 10 + dval c2) * 10 + dval c3) * 10 + dval c4, rest4)
                else some ((dval c1 * 10 + dval c2) * 10 + dval c3, rest3)
              | [] => some ((dval c1 * 10 + dval c2) * 10 + dval c3, [])
            else some (dval c1 * 10 + dval c2, rest2)
          | [] => some (dval c1 * 10 + dval c2, [])
        else some (dval c1, rest1)
      | [] => some (dval c1, [])
    else none
  | [] => none

def expectChar (c : Char) : Str → Option Str
  | c' :: rest => if c' = c then some rest else none
  | [] => none

/-- Datetime construction: Python's `datetime` constructor rejects
out-of-range fields. -/
def validate (t : Time) : Option Time := if t.Valid then some t else none

/-- `strptime(s, '%H:%M, %d.%m.%Y')` before range validation; the parsed
datetime has seconds `0`. -/
def parseCustomRaw (s : Str) : Option Time := do
  let (h, s) ← read2 s
  let s ← expectChar ':' s
  let (mi, s) ← read2 s
  let s ← expectChar ',' s
  let s ← expectChar ' ' s
  let (d, s) ← read2 s
  let s ← expectChar '.' s
  let (mo, s) ← read2 s
  let s ← expectChar '.' s
  let (y, s) ← read4 s
  if s = [] then some ⟨y, mo, d, h, mi, 0⟩ else none

/-- `strptime(s, '%H:%M, %d.%m.%Y')`: parse, then validate ranges. -/
def parseCustom (s : Str) : Option Time := (parseCustomRaw s).bind validate

/-- `datetime.fromisoformat` on the shapes the pipeline stores:
`YYYY-MM-DDTHH:MM[:SS[.ffffff]][±HH:MM]` (fractional seconds and offsets are
accepted and discarded; offsets do not shift the wall-clock fields the engine
compares). -/
def parseIsoRaw (s : Str) : Option Time := do
  let (y, s) ← read4 s
  let s ← expectChar '-' s
  let (mo, s) ← read2 s
  let s ← expectChar '-' s
  let (d, s) ← read2 s
  let s ← expectChar 'T' s
  let (h, s) ← read2 s
  let s ← expectChar ':' s
  let (mi, s) ← read2 s
  let (sec, rest) ←
    match s with
    | ':' :: s' => do
        let (sec, s'') ← read2 s'
        pure (sec, s'')
    | _ => pure (0, s)
  let rest :=
    match rest with
    | '.' :: r => r.dropWhile isDig
    | r => r
  let ok :=
    match rest with
    | [] => true
    | '+' :: r | '-' :: r =>
        match parseCustomOffset r with
        | some _ => true
        | none => false
    | _ => false
  if ok then some ⟨y, mo, d, h, mi, sec⟩ else none
where
  parseCustomOffset (r : Str) : Option Unit := do
    let (_, r) ← read2 r
    let r ← expectChar ':' r
    let (_, r) ← read2 r
    if r = [] then some () else none

/-- `datetime.fromisoformat`: parse, then validate ranges. -/
def parseIso (s : Str) : Option Time := (parseIsoRaw s).bind validate

/-- `parse_timestamp`: ISO branch when the text contains `'T'`, otherwise the
custom `'HH:MM, DD.MM.YYYY'` branch; `none` models the raised exception. -/
def parse_timestamp (s : Str) : Option Time :=
  if 'T' ∈ s then parseIso s else parseCustom s


/-! ## Python values

Mongo documents are duck typed; a stored field can hold `None`, a bool, an
int, a string or a datetime.  `Val` captures the shapes the code inspects. -/

inductive Val where
  | vNone
  | vBool (b : Bool)
  | vInt (n : Int)
  | vStr (s : Str)
  | vDt (t : Time)
deriving DecidableEq, Repr

/-- Python truthiness of a value. -/
def pyTruthy : Val → Bool
  | .vNone => false
  | .vBool b => b
  | .vInt n => n ≠ 0
  | .vStr s => !s.isEmpty
  | .vDt _ => true

/-- Truthiness of `d.get(key)` (absent key → `None` → falsy). -/
def optTruthy : Option Val → Bool
  | none => false
  | some v => pyTruthy v

/-- Python `int(v)`; `.error` models the raised `ValueError`/`TypeError`
(the callers catch it and default to `0`). -/
def pyInt : Val → Except Unit Int
  | .vInt n => .ok n
  | .vBool b => .ok (if b then 1 else 0)
  | .vStr s => if s ≠ [] ∧ s.all isDig then .ok (s.foldl (fun a c => a * 10 + (dval c : Int)) 0) else .error ()
  | .vNone => .error ()
  | .vDt _ => .error ()

/-- `int(v)` under the code's `try/except` defaulting to `0`. -/
def pyIntD (v : Val) : Int := ((pyInt v).toOption).getD 0

/-- Python `ts <= v` for a datetime `ts`; non-datetime right operands raise
`TypeError` (`.error`). -/
def pyLeTV (ts : Time) : Val → Except Unit Bool
  | .vDt u => .ok (ts.key ≤ u.key)
  | _ => .error ()

/-- `lesson_entry.get('last_practice', datetime.min)` compared with `ts >`:
an absent key compares against `datetime.min` (always smaller), a present
datetime compares normally, and any other present value (including `None`)
raises `TypeError`. -/
def pyGtField (ts : Time) : Option Val → Except Unit Bool
  | none => .ok true
  | some (.vDt u) => .ok (u.key < ts.key)
  | some _ => .error ()

/-! ## Lesson records -/

/-- A stored lesson document as found in Mongo (`none` = key absent). -/
structure RawLesson where
  lesson : Option Str
  teacher : Option Val
  practice_count : Option Val
  message_count : Option Val
  first_practice : Option Val
  last_practice : Option Val
  paid : Option Val
deriving DecidableEq, Repr

/-- A sanitized in-memory lesson entry (the shape every value of
`lessons_dict` has after the load loop or creation). -/
structure LessonEntry where
  lesson : Str
  teacher : Option Val
  practice_count : Option Int
  message_count : Int
  first_practice : Option Val
  last_practice : Option Val
  paid : Bool
deriving DecidableEq, Repr

/-- Timestamp-field sanitation: parse strings, leave unparsable strings and
non-string values as they are (`try: ... except: pass`). -/
def parseField : Option Val → Option Val
  | some (.vStr s) =>
      match parse_timestamp s with
      | some t => some (.vDt t)
      | none => some (.vStr s)
  | x => x

/-- The per-entry body of the load loop of `process_student_messages`
(lines 88–130): drop entries without a `lesson` key, parse timestamp fields,
coerce `practice_count`/`message_count` to ints and `paid` to a bool. -/
def sanitizeLesson (r : RawLesson) : Option LessonEntry :=
  match r.lesson with
  | none => none
  | some lab =>
      some { lesson := lab
             teacher := r.teacher
             practice_count := r.practice_count.map pyIntD
             message_count := match r.message_count with
               | none => 0
               | some v => pyIntD v
             first_practice := parseField r.first_practice
             last_practice := parseField r.last_practice
             paid := match r.paid with
               | none => false
               | some v => pyTruthy v }

/-- Insertion-ordered dictionary (`lessons_dict`). -/
abbrev LDict := List (Str × LessonEntry)

/-- `d[k] = v`: update in place if the key exists, else append. -/
def setd (d : LDict) (k : Str) (v : LessonEntry) : LDict :=
  match d with
  | [] => [(k, v)]
  | (k', v') :: rest => if k' = k then (k, v) :: rest else (k', v') :: setd rest k v

/-- `d.get(k)` / `k in d`. -/
def getd (d : LDict) (k : Str) : Option LessonEntry :=
  match d with
  | [] => none
  | (k', v') :: rest => if k' = k then some v' else getd rest k

/-- One stored lesson folded into `lessons_dict`. -/
def loadLessonStep (d : LDict) (r : RawLesson) : LDict :=
  match sanitizeLesson r with
  | none => d
  | some e => setd d e.lesson e

/-- Build `lessons_dict` from the stored lesson list (keyed by the sanitized
entry's label; a duplicate label overwrites in place). -/
def loadLessons (stored : List RawLesson) : LDict :=
  stored.foldl loadLessonStep []

/-! ## Lesson sort -/

/-- `extract_number`: concatenate the digits of the label; a label with no
digits raises in `int('')` and gets the fallback key `9999`. -/
def extract_number (lab : Str) : Nat :=
  let ds := lab.filter isDig
  if ds = [] then 9999 else ds.foldl (fun a c => a * 10 + dval c) 0

/-- Stable insertion (an element goes before every later element whose key
is not smaller), realising Python's stable `sorted`. -/
def insLesson (e : LessonEntry) : List LessonEntry → List LessonEntry
  | [] => [e]
  | x :: xs =>
      if extract_number x.lesson < extract_number e.lesson then x :: insLesson e xs
      else e :: x :: xs

/-- `sorted(lessons_dict.values(), key=lambda x: extract_number(x['lesson']))`. -/
def sortLessons : List LessonEntry → List LessonEntry
  | [] => []
  | x :: xs => insLesson x (sortLessons xs)


/-! ## Events and the merge engine -/

inductive MType where
  | message
  | practice
  | other
deriving DecidableEq, Repr

/-- One transformed input record for a student, with `current_timestamp`
already parsed (an unparsable event timestamp aborts the student's merge and
is not exercised by any claim). -/
structure Event where
  phone_number : Str
  name : Str
  lesson : Str
  teacher : Str
  message_type : MType
  ts : Time
deriving DecidableEq, Repr

/-- Working state of the event loop of `process_student_messages`. -/
structure MergeState where
  lessons : LDict
  lastMsg : Option Time
  lastPrac : Option Time
deriving DecidableEq, Repr

/-- Lesson entry created for a message event on an unknown lesson. -/
def newMsgLesson (e : Event) : LessonEntry :=
  ⟨e.lesson, some (.vStr e.teacher), some 0, 1, some .vNone, some .vNone, false⟩

/-- Lesson entry created for a practice event on an unknown lesson. -/
def newPracLesson (e : Event) : LessonEntry :=
  ⟨e.lesson, some (.vStr e.teacher), some 1, 0, some (.vDt e.ts), some (.vDt e.ts), false⟩

/-- Zero-state entry auto-added for the current lesson. -/
def zeroLesson (lab teach : Str) : LessonEntry :=
  ⟨lab, some (.vStr teach), some 0, 0, some .vNone, some .vNone, false⟩

/-- `if not mark or ts > mark: mark = ts`. -/
def raiseMark (m : Option Time) (ts : Time) : Option Time :=
  match m with
  | none => some ts
  | some u => if u.key < ts.key then some ts else some u

/-- `if existing_mark and ts <= existing_mark` (short-circuit on falsy;
a truthy non-datetime raises `TypeError`). -/
def staleVsExisting (ts : Time) : Option Val → Except Unit Bool
  | none => .ok false
  | some v => if pyTruthy v then pyLeTV ts v else .ok false

/-- One iteration of the event loop (lines 136–202). -/
def procEvent (exM exP : Option Val) (st : MergeState) (e : Event) :
    Except Unit MergeState :=
  match e.message_type with
  | .other => .ok st
  | .message => do
      let s1 ← staleVsExisting e.ts exM
      let s2 : Bool := match st.lastMsg with
        | some m => e.ts.key ≤ m.key
        | none => false
      if s1 then pure st
      else if s2 then pure st
      else
        let lessons' := match getd st.lessons e.lesson with
          | some en => setd st.lessons e.lesson { en with message_count := en.message_count + 1 }
          | none => setd st.lessons e.lesson (newMsgLesson e)
        pure { lessons := lessons', lastMsg := raiseMark st.lastMsg e.ts, lastPrac := st.lastPrac }
  | .practice => do
      let s1 ← staleVsExisting e.ts exP
      let s2 : Bool := match st.lastPrac with
        | some m => e.ts.key ≤ m.key
        | none => false
      if s1 then pure st
      else if s2 then pure st
      else
        match getd st.lessons e.lesson with
        | some en => do
            let acc ← pyGtField e.ts en.last_practice
            if acc then
              let en' : LessonEntry :=
                { en with
                  practice_count := some (en.practice_count.getD 0 + 1)
                  teacher := some (.vStr e.teacher)
                  last_practice := some (.vDt e.ts)
                  first_practice :=
                    if optTruthy en.first_practice then en.first_practice
                    else some (.vDt e.ts) }
              pure { lessons := setd st.lessons e.lesson en'
                     lastMsg := st.lastMsg
                     lastPrac := raiseMark st.lastPrac e.ts }
            else pure st
        | none =>
            pure { lessons := setd st.lessons e.lesson (newPracLesson e)
                   lastMsg := st.lastMsg
                   lastPrac := raiseMark st.lastPrac e.ts }

def procEvents (exM exP : Option Val) (st : MergeState) (es : List Event) :
    Except Unit MergeState :=
  es.foldlM (procEvent exM exP) st

/-- The persisted student document fields the merge reads. -/
structure StudentRec where
  last_message_timedate : Option Val
  last_practice_timedate : Option Val
  lessons : Option (List RawLesson)
deriving DecidableEq, Repr

/-- Lines 76–83: a falsy or absent stored mark yields no working mark, a
string is parsed (an unparsable string propagates the exception), any other
truthy value is kept raw. -/
def fetchMark : Option Val → Except Unit (Option Val)
  | none => .ok none
  | some w =>
      if pyTruthy w then
        match w with
        | .vStr s =>
            match parse_timestamp s with
            | some t => .ok (some (.vDt t))
            | none => .error ()
        | _ => .ok (some w)
      else .ok none

/-- Lines 226–229: convert datetimes back to canonical strings before saving. -/
def cleanVal : Option Val → Option Val
  | some (.vDt t) => some (.vStr (format_timestamp t))
  | x => x

def cleanLesson (e : LessonEntry) : LessonEntry :=
  { e with first_practice := cleanVal e.first_practice
           last_practice := cleanVal e.last_practice }

/-- The `$set` payload (plus `is_new`) returned by
`process_student_messages`. -/
structure Upsert where
  phone_number : Str
  name : Str
  current_lesson : Str
  lessons : List LessonEntry
  last_message_timedate : Option Str
  last_practice_timedate : Option Str
  is_new : Bool
deriving DecidableEq, Repr

/-- Lines 204–214: auto-add a zero-state entry for the current lesson. -/
def autoAddCurrent (d : LDict) (lab teach : Str) : LDict :=
  match getd d lab with
  | some _ => d
  | none => setd d lab (zeroLesson lab teach)

/-- Lines 216–229: sort the dict's values and convert datetimes to canonical
strings. -/
def serializeDict (d : LDict) : List LessonEntry :=
  (sortLessons (d.map Prod.snd)).map cleanLesson

/-- The initial `lessons_dict` for a (possibly absent) stored record. -/
def loadRecLessons : Option StudentRec → LDict
  | none => []
  | some r =>
      match r.lessons with
      | none => []
      | some raws => loadLessons raws

/-- `process_student_messages` (an empty batch raises `IndexError`). -/
def process (batch : List Event) (existing : Option StudentRec) :
    Except Unit Upsert :=
  match batch with
  | [] => .error ()
  | first :: _ => do
      let exM ← fetchMark (existing.bind (·.last_message_timedate))
      let exP ← fetchMark (existing.bind (·.last_practice_timedate))
      let st ← procEvents exM exP ⟨loadRecLessons existing, none, none⟩ batch
      pure { phone_number := first.phone_number
             name := first.name
             current_lesson := first.lesson
             lessons := serializeDict (autoAddCurrent st.lessons first.lesson first.teacher)
             last_message_timedate := st.lastMsg.map format_timestamp
             last_practice_timedate := st.lastPrac.map format_timestamp
             is_new := existing.isNone }

/-- The stored form of a serialized lesson entry. -/
def entryToRaw (e : LessonEntry) : RawLesson :=
  { lesson := some e.lesson
    teacher := e.teacher
    practice_count := e.practice_count.map Val.vInt
    message_count := some (.vInt e.message_count)
    first_practice := e.first_practice
    last_practice := e.last_practice
    paid := some (.vBool e.paid) }

/-- Effect of the `$set` upsert on the stored record: marks are only written
when present in the payload, the lessons array is replaced. -/
def applyUpsert (old : Option StudentRec) (u : Upsert) : StudentRec :=
  { last_message_timedate :=
      match u.last_message_timedate with
      | some s => some (.vStr s)
      | none => old.bind (·.last_message_timedate)
    last_practice_timedate :=
      match u.last_practice_timedate with
      | some s => some (.vStr s)
      | none => old.bind (·.last_practice_timedate)
    lessons := some (u.lessons.map entryToRaw) }

/-- One merge-then-persist step; a raised exception is caught by the caller
and leaves the stored record unchanged. -/
def mergeStep (r : Option StudentRec) (b : List Event) : Option StudentRec :=
  match process b r with
  | .ok u => some (applyUpsert r u)
  | .error _ => r

/-- A sequence of merges on one student, starting from no record. -/
def runBatches (bs : List (List Event)) : Option StudentRec :=
  bs.foldl mergeStep none

/-! ## Batch aggregation (`aggregate_student_updates`, `load`) -/

/-- Append a record to its phone's group (`defaultdict(list)` preserves
first-occurrence order of keys and within-group order). -/
def pushGroup (m : List (Str × List Event)) (p : Str) (r : Event) :
    List (Str × List Event) :=
  match m with
  | [] => [(p, [r])]
  | (p', es) :: rest =>
      if p' = p then (p', es ++ [r]) :: rest
      else (p', es) :: pushGroup rest p r

/-- `aggregate_student_updates`: group records by `phone_number` only. -/
def aggregate_student_updates (records : List Event) : List (Str × List Event) :=
  records.foldl (fun m r => pushGroup m r.phone_number r) []

/-- `generate_uniq_id`: the model keeps the pre-digest content
`f"{phone_number}_{name}"`; the md5 hex digest is injective in the model,
standing in for the digest's collision resistance. -/
def generate_uniq_id (phone name : Str) : Str := phone ++ '_' :: name

structure BatchStats where
  students_processed : Nat
  new_students : Nat
  updated_students : Nat
  messages_loaded : Nat
  practices_loaded : Nat
  errors : Nat
deriving DecidableEq, Repr

def BatchStats.zero : BatchStats := ⟨0, 0, 0, 0, 0, 0⟩

/-- The record `find_one` fetches for a group (keyed by the first event's
identity). -/
def groupExisting (db : Str → Option StudentRec) (msgs : List Event) :
    Option StudentRec :=
  match msgs with
  | [] => none
  | first :: _ => db (generate_uniq_id first.phone_number first.name)

/-- Per-student body of `load`'s loop: count raw per-kind events, run the
merge, and on success add the raw counts to the totals; a raised exception
only bumps `errors`. -/
def loadStep (db : Str → Option StudentRec) (stats : BatchStats)
    (g : Str × List Event) : BatchStats :=
  let mc := g.2.countP (fun m => m.message_type = MType.message)
  let pc := g.2.countP (fun m => m.message_type = MType.practice)
  match process g.2 (groupExisting db g.2) with
  | .error _ => { stats with errors := stats.errors + 1 }
  | .ok u =>
      { stats with
        students_processed := stats.students_processed + 1
        new_students := if u.is_new then stats.new_students + 1 else stats.new_students
        updated_students := if u.is_new then stats.updated_students else stats.updated_students + 1
        messages_loaded := stats.messages_loaded + mc
        practices_loaded := stats.practices_loaded + pc }

/-- `load` (lines 263–350), with the Mongo collection abstracted to a
point-lookup `db` keyed by `uniq_id`. -/
def load (db : Str → Option StudentRec) (records : List Event) : BatchStats :=
  if records.isEmpty then .zero
  else (aggregate_student_updates records).foldl (loadStep db) .zero

/-- Sort key of an entry. -/
def lessonKey (e : LessonEntry) : Nat := extract_number e.lesson

/-- First group stored under phone `p`. -/
def findGroup (m : List (Str × List Event)) (p : Str) : Option (List Event) :=
  match m with
  | [] => none
  | (q, es) :: rest => if q = p then some es else findGroup rest p

/-- Merge an already-collected group with the matching suffix records. -/
def combineGroup (o : Option (List Event)) (fs : List Event) : Option (List Event) :=
  match o, fs with
  | none, [] => none
  | none, fs => some fs
  | some es, fs => some (es ++ fs)

/-! ## Observed marks, well-formedness invariants -/

/-- The instant a stored field value denotes (strings through the codec). -/
def valTime : Val → Option Time
  | .vDt t => some t
  | .vStr s => parse_timestamp s
  | _ => none

/-- The student-level message high-water mark a stored record denotes. -/
def recMsgTime : Option StudentRec → Option Time
  | none => none
  | some R =>
      match R.last_message_timedate with
      | none => none
      | some v => valTime v

/-- The student-level practice high-water mark a stored record denotes. -/
def recPracTime : Option StudentRec → Option Time
  | none => none
  | some R =>
      match R.last_practice_timedate with
      | none => none
      | some v => valTime v

/-- First stored lesson document with the given label. -/
def findRaw (raws : List RawLesson) (lab : Str) : Option RawLesson :=
  match raws with
  | [] => none
  | raw :: rest => if raw.lesson = some lab then some raw else findRaw rest lab

/-- The per-lesson practice high-water mark a stored record denotes. -/
def lessonPracTime (r : Option StudentRec) (lab : Str) : Option Time :=
  match r with
  | none => none
  | some R =>
      match R.lessons with
      | none => none
      | some raws =>
          match findRaw raws lab with
          | none => none
          | some raw =>
              match raw.last_practice with
              | none => none
              | some v => valTime v

/-- Mark evolution: an absent mark may become anything, a present mark must
stay present and not decrease. -/
def markLe : Option Time → Option Time → Prop
  | none, _ => True
  | some _, none => False
  | some a, some b => a.key ≤ b.key

/-- A mark field the engine itself has written: absent, or the canonical
rendering of a valid minute-precision instant. -/
def WFMark (o : Option Val) : Prop :=
  o = none ∨ ∃ t : Time, t.Valid ∧ t.sec = 0 ∧ o = some (.vStr (format_timestamp t))

/-- A lesson timestamp field the engine itself has written: `None`, or the
canonical rendering of a valid minute-precision instant. -/
def wfStoredField (o : Option Val) : Prop :=
  o = some .vNone ∨
    ∃ t : Time, t.Valid ∧ t.sec = 0 ∧ o = some (.vStr (format_timestamp t))

/-- A record reachable by a sequence of merges starting from no record. -/
def WFRec (R : StudentRec) : Prop :=
  WFMark R.last_message_timedate ∧ WFMark R.last_practice_timedate ∧
  ∃ raws : List RawLesson, R.lessons = some raws ∧
    (raws.map RawLesson.lesson).Nodup ∧
    ∀ raw ∈ raws, (∃ lab, raw.lesson = some lab) ∧ wfStoredField raw.last_practice

def WFOpt : Option StudentRec → Prop
  | none => True
  | some R => WFRec R

/-- Working-dictionary shape invariant: keys are distinct and each entry is
keyed by its own label. -/
def dictWF (d : LDict) : Prop :=
  (d.map Prod.fst).Nodup ∧ ∀ kv ∈ d, kv.2.lesson = kv.1

/-- Working-dictionary field invariant: every `last_practice` is `None` or a
valid datetime. -/
def dictFieldsOK (d : LDict) : Prop :=
  ∀ kv ∈ d, kv.2.last_practice = some .vNone ∨
    ∃ t : Time, t.Valid ∧ kv.2.last_practice = some (.vDt t)

def optTimeLe : Option Time → Option Time → Prop
  | none, _ => True
  | some _, none => False
  | some a, some b => a.key ≤ b.key

/-- A timestamp field value whose datetimes are valid and whose strings are
unparsable (every parseable string was turned into a datetime by the
sanitizer). -/
def WFV (o : Option Val) : Prop :=
  (∀ t, o = some (.vDt t) → t.Valid) ∧
  (∀ s, o = some (.vStr s) → parse_timestamp s = none)

/-- Both timestamp fields of every dictionary entry satisfy `WFV`. -/
def dictValsWF (d : LDict) : Prop :=
  ∀ kv ∈ d, WFV kv.2.first_practice ∧ WFV kv.2.last_practice

/-- A stored lesson document whose raw datetimes are valid Python
datetimes. -/
def rawTimesValid (raw : RawLesson) : Prop :=
  (∀ t, raw.first_practice = some (.vDt t) → t.Valid) ∧
  (∀ t, raw.last_practice = some (.vDt t) → t.Valid)

/-- Re-sanitization of a serialized entry only re-parses its two timestamp
fields. -/
def parseFixEntry (en : LessonEntry) : LessonEntry :=
  { en with first_practice := parseField en.first_practice
            last_practice := parseField en.last_practice }

/-- Everything one loop iteration guarantees: batch marks only rise and only
to the timestamp of a non-stale event of the right kind; existing dictionary
entries survive with their label, their `last_practice` either untouched or
raised to the event's (strictly larger) timestamp; and the dictionary shape
and field invariants are preserved. -/
def ProcSpec (exM exP : Option Val) (st st' : MergeState) (e : Event) : Prop :=
  optTimeLe st.lastMsg st'.lastMsg ∧
  optTimeLe st.lastPrac st'.lastPrac ∧
  (st'.lastMsg = st.lastMsg ∨
    (st'.lastMsg = some e.ts ∧ e.message_type = .message ∧
      staleVsExisting e.ts exM = .ok false)) ∧
  (st'.lastPrac = st.lastPrac ∨
    (st'.lastPrac = some e.ts ∧ e.message_type = .practice ∧
      staleVsExisting e.ts exP = .ok false)) ∧
  (∀ lab en0, getd st.lessons lab = some en0 →
    ∃ en1, getd st'.lessons lab = some en1 ∧ en1.lesson = en0.lesson ∧
      (en1.last_practice = en0.last_practice ∨
        (en1.last_practice = some (.vDt e.ts) ∧ e.message_type = .practice ∧
          ∀ t0, en0.last_practice = some (.vDt t0) → t0.key < e.ts.key))) ∧
  (dictWF st.lessons → dictWF st'.lessons) ∧
  (e.ts.Valid → dictFieldsOK st.lessons → dictFieldsOK st'.lessons) ∧
  (e.ts.Valid → dictValsWF st.lessons → dictValsWF st'.lessons)

/-- Invariant carried through the loop: a batch-local mark, when present,
was set by an event that was not stale against the existing mark. -/
def MarkInv (exM exP : Option Val) (st : MergeState) : Prop :=
  (st.lastMsg = none ∨
    ∃ bm, st.lastMsg = some bm ∧ staleVsExisting bm exM = .ok false) ∧
  (st.lastPrac = none ∨
    ∃ bm, st.lastPrac = some bm ∧ staleVsExisting bm exP = .ok false)

/-- A processed event is accounted for by the final state: its timestamp is
below the batch-local mark of its kind, or it was stale against the
existing mark and no batch-local mark ever appeared, or (practice only) it
was rejected by a lesson-level mark at least as large. -/
def Cover (exM exP : Option Val) (st : MergeState) (e : Event) : Prop :=
  match e.message_type with
  | .other => True
  | .message =>
      (∃ bm, st.lastMsg = some bm ∧ e.ts.key ≤ bm.key) ∨
      (st.lastMsg = none ∧ staleVsExisting e.ts exM = .ok true)
  | .practice =>
      (∃ bm, st.lastPrac = some bm ∧ e.ts.key ≤ bm.key) ∨
      (st.lastPrac = none ∧ staleVsExisting e.ts exP = .ok true) ∨
      (staleVsExisting e.ts exP = .ok false ∧
        ∃ en dt, getd st.lessons e.lesson = some en ∧
          en.last_practice = some (.vDt dt) ∧ e.ts.key ≤ dt.key)

/-- The event is rejected by the loop without touching the state and
without raising. -/
def rejected2 (exM exP : Option Val) (d : LDict) (e : Event) : Prop :=
  match e.message_type with
  | .other => True
  | .message => staleVsExisting e.ts exM = .ok true
  | .practice =>
      staleVsExisting e.ts exP = .ok true ∨
      ((∃ bb, staleVsExisting e.ts exP = .ok bb) ∧
        ∃ en, getd d e.lesson = some en ∧
          pyGtField e.ts en.last_practice = .ok false)

/-- `ProcSpec` lifted over a whole batch. -/
def ProcsSpec (exM exP : Option Val) (es : List Event) (st st' : MergeState) : Prop :=
  optTimeLe st.lastMsg st'.lastMsg ∧
  optTimeLe st.lastPrac st'.lastPrac ∧
  (st'.lastMsg = st.lastMsg ∨
    ∃ e ∈ es, st'.lastMsg = some e.ts ∧ e.message_type = .message ∧
      staleVsExisting e.ts exM = .ok false) ∧
  (st'.lastPrac = st.lastPrac ∨
    ∃ e ∈ es, st'.lastPrac = some e.ts ∧ e.message_type = .practice ∧
      staleVsExisting e.ts exP = .ok false) ∧
  (∀ lab en0, getd st.lessons lab = some en0 →
    ∃ en1, getd st'.lessons lab = some en1 ∧ en1.lesson = en0.lesson ∧
      (en1.last_practice = en0.last_practice ∨
        ∃ e ∈ es, en1.last_practice = some (.vDt e.ts) ∧ e.message_type = .practice ∧
          ∀ t0, en0.last_practice = some (.vDt t0) → t0.key < e.ts.key)) ∧
  (dictWF st.lessons → dictWF st'.lessons) ∧
  ((∀ e ∈ es, e.ts.Valid) → dictFieldsOK st.lessons → dictFieldsOK st'.lessons) ∧
  ((∀ e ∈ es, e.ts.Valid) → dictValsWF st.lessons → dictValsWF st'.lessons)

/-! ## Helper predicates and concrete data used by the claims -/

/-- A field value that is not a raw datetime object. -/
def noDtField (o : Option Val) : Prop := ∀ t : Time, o ≠ some (.vDt t)

instance {ε α : Type} [DecidableEq ε] [DecidableEq α] :
    DecidableEq (Except ε α) := fun x y =>
  match x, y with
  | .error a, .error b =>
      if h : a = b then isTrue (congrArg Except.error h)
      else isFalse (fun hc => h (Except.error.inj hc))
  | .error _, .ok _ => isFalse (fun hc => Except.noConfusion hc)
  | .ok _, .error _ => isFalse (fun hc => Except.noConfusion hc)
  | .ok a, .ok b =>
      if h : a = b then isTrue (congrArg Except.ok h)
      else isFalse (fun hc => h (Except.ok.inj hc))

/-- The event is rejected at the student-level high-water-mark gate
(independently of the loop state); an `other`-typed event is always a
no-op. -/
def staleEvent (exM exP : Option Val) (e : Event) : Prop :=
  match e.message_type with
  | .message => staleVsExisting e.ts exM = .ok true
  | .practice => staleVsExisting e.ts exP = .ok true
  | .other => True

instance (exM exP : Option Val) (e : Event) : Decidable (staleEvent exM exP e) := by
  unfold staleEvent
  rcases e.message_type <;> infer_instance

/-- Total practice count recorded in an upsert payload. -/
def sumPrac (u : Upsert) : Int :=
  (u.lessons.map (fun e => e.practice_count.getD 0)).sum

/-- Agreement to the second: the model carries no sub-second fields, so
within-second equality of instants is plain equality. -/
def withinSecondEq (a b : Time) : Prop := a = b

instance (a b : Time) : Decidable (withinSecondEq a b) := by
  unfold withinSecondEq; infer_instance

def exT0830 : Time := ⟨2025, 1, 1, 8, 30, 0⟩
def exT0900 : Time := ⟨2025, 1, 1, 9, 0, 0⟩
def exT1000 : Time := ⟨2025, 12, 2, 10, 0, 0⟩
def exT1005 : Time := ⟨2025, 12, 2, 10, 5, 0⟩
def exT1230 : Time := ⟨2025, 12, 2, 12, 30, 0⟩
def exT1300 : Time := ⟨2025, 12, 2, 13, 0, 0⟩

/-- A datetime with a non-zero seconds component (as ISO-8601 events carry). -/
def exTSec : Time := ⟨2025, 12, 2, 16, 15, 42⟩

/-- An event of student `("p1", "nA")`. -/
def exEv (l : String) (k : MType) (t : Time) : Event :=
  ⟨"p1".data, "nA".data, l.data, "T1".data, k, t⟩

/-- Same phone number as `exEv`, different display name. -/
def exEvOtherName : Event :=
  ⟨"p1".data, "nB".data, "1".data, "T2".data, .message, exT1005⟩

/-- An existing record with an empty lessons array and no marks. -/
def exRecEmpty : StudentRec := ⟨none, none, some []⟩

/-- A canonical stored lesson entry for lesson "1" with zero counters. -/
def exRawZero1 : RawLesson := entryToRaw (zeroLesson "1".data "T1".data)

/-- Scenario-B-style record: `last_practice_timedate = 09:00, 01.01.2025`. -/
def exRecB : StudentRec :=
  ⟨none, some (.vStr "09:00, 01.01.2025".data), some [exRawZero1]⟩

/-- A historical lesson document carrying only its label (older schema with
no `practice_count` key). -/
def exRawBare : RawLesson := ⟨some "1".data, none, none, none, none, none, none⟩

/-- The upsert produced by merging the single practice event at `exT1000`
into `exRecEmpty`. -/
def exU1C2 : Upsert :=
  { phone_number := "p1".data
    name := "nA".data
    current_lesson := "1".data
    lessons := [{ lesson := "1".data
                  teacher := some (.vStr "T1".data)
                  practice_count := some 1
                  message_count := 0
                  first_practice := some (.vStr "10:00, 02.12.2025".data)
                  last_practice := some (.vStr "10:00, 02.12.2025".data)
                  paid := false }]
    last_message_timedate := none
    last_practice_timedate := some "10:00, 02.12.2025".data
    is_new := false }

/-! ## Theorems -/

theorem Time.key_truncMin (t : Time) : t.truncMin.key = t.key - t.sec := by
  simp only [Time.key, Time.truncMin]; omega

theorem Time.sec_le_key (t : Time) : t.sec ≤ t.key := by
  simp only [Time.key]; omega

/-- A minute-precision instant below a second one stays below its
truncation. -/
theorem Time.le_truncMin_of_le {a b : Time} (ha : a.sec = 0) (hb : b.sec ≤ 59)
    (h : a.key ≤ b.key) : a.key ≤ b.truncMin.key := by
  have h2 : b.truncMin.key = b.key - b.sec := Time.key_truncMin b
  simp only [Time.key] at h h2 ⊢
  omega

/-- A minute-precision instant strictly below a second one stays `≤` its
truncation. -/
theorem Time.le_truncMin_of_lt {a b : Time} (ha : a.sec = 0) (hb : b.sec ≤ 59)
    (h : a.key < b.key) : a.key ≤ b.truncMin.key :=
  Time.le_truncMin_of_le ha hb (Nat.le_of_lt h)

theorem Time.truncMin_key_le (t : Time) : t.truncMin.key ≤ t.key := by
  rw [Time.key_truncMin]; omega

theorem Time.truncMin_valid {t : Time} (h : t.Valid) : t.truncMin.Valid := by
  obtain ⟨h1, h2, h3, h4, h5, h6, h7, h8, _⟩ := h
  exact ⟨h1, h2, h3, h4, h5, h6, h7, h8, Nat.zero_le _⟩

theorem isDig_digitChar {n : Nat} (h : n < 10) : isDig (Nat.digitChar n) = true := by
  interval_cases n <;> decide

theorem dval_digitChar {n : Nat} (h : n < 10) : dval (Nat.digitChar n) = n := by
  interval_cases n <;> decide

theorem digitChar_ne_T {n : Nat} (h : n < 10) : Nat.digitChar n ≠ 'T' := by
  interval_cases n <;> decide

theorem isDig_digitChar_mod (n : Nat) : isDig (Nat.digitChar (n % 10)) = true :=
  isDig_digitChar (Nat.mod_lt _ (by norm_num))

theorem dval_digitChar_mod (n : Nat) : dval (Nat.digitChar (n % 10)) = n % 10 :=
  dval_digitChar (Nat.mod_lt _ (by norm_num))

theorem digitChar_mod_ne_T (n : Nat) : Nat.digitChar (n % 10) ≠ 'T' :=
  digitChar_ne_T (Nat.mod_lt _ (by norm_num))

theorem T_not_mem_format (t : Time) : 'T' ∉ format_timestamp t := by
  intro hmem
  simp only [format_timestamp, pad2, pad4, List.cons_append, List.nil_append,
    List.mem_cons, List.mem_append, List.not_mem_nil, or_false] at hmem
  rcases hmem with h | h | h | h | h | h | h | h | h | h | h | h | h | h | h | h | h <;>
    first
      | exact digitChar_mod_ne_T _ h.symm
      | simp_all

theorem parseCustomRaw_format {t : Time} (h : t.Valid) :
    parseCustomRaw (format_timestamp t) = some t.truncMin := by
  obtain ⟨h1, h2, h3, h4, h5, h6, h7, h8, h9⟩ := h
  simp only [format_timestamp, pad2, pad4, List.cons_append, List.nil_append]
  simp only [parseCustomRaw, read2, read4, expectChar, isDig_digitChar_mod,
    dval_digitChar_mod, if_true, if_false, reduceIte, Option.bind_eq_bind,
    Option.some_bind, Option.pure_def]
  have eh : t.hour / 10 % 10 * 10 + t.hour % 10 = t.hour := by omega
  have emi : t.minute / 10 % 10 * 10 + t.minute % 10 = t.minute := by omega
  have ed : t.day / 10 % 10 * 10 + t.day % 10 = t.day := by omega
  have emo : t.month / 10 % 10 * 10 + t.month % 10 = t.month := by omega
  have ey : ((t.year / 1000 % 10 * 10 + t.year / 100 % 10) * 10 + t.year / 10 % 10) * 10
      + t.year % 10 = t.year := by omega
  rw [eh, emi, ed, emo, ey]
  rfl

theorem parseCustom_format {t : Time} (h : t.Valid) :
    parseCustom (format_timestamp t) = some t.truncMin := by
  rw [parseCustom, parseCustomRaw_format h, Option.some_bind, validate,
    if_pos (Time.truncMin_valid h)]

theorem parse_format {t : Time} (h : t.Valid) :
    parse_timestamp (format_timestamp t) = some t.truncMin := by
  rw [parse_timestamp, if_neg (T_not_mem_format t), parseCustom_format h]

theorem insLesson_perm (e : LessonEntry) :
    ∀ l : List LessonEntry, (insLesson e l).Perm (e :: l) := by
  intro l
  induction l with
  | nil => simp [insLesson]
  | cons x xs ih =>
      by_cases h : extract_number x.lesson < extract_number e.lesson
      · simp only [insLesson, if_pos h]
        exact (ih.cons x).trans (List.Perm.swap e x xs)
      · simp [insLesson, if_neg h]

theorem sortLessons_perm : ∀ l : List LessonEntry, (sortLessons l).Perm l := by
  intro l
  induction l with
  | nil => simp [sortLessons]
  | cons x xs ih => exact (insLesson_perm x (sortLessons xs)).trans (ih.cons x)

theorem insLesson_pairwise (e : LessonEntry) :
    ∀ l : List LessonEntry, l.Pairwise (fun a b => lessonKey a ≤ lessonKey b) →
      (insLesson e l).Pairwise (fun a b => lessonKey a ≤ lessonKey b) := by
  intro l
  induction l with
  | nil => intro _; simp [insLesson]
  | cons x xs ih =>
      intro h
      rw [List.pairwise_cons] at h
      obtain ⟨hx, hxs⟩ := h
      by_cases hlt : extract_number x.lesson < extract_number e.lesson
      · simp only [insLesson, if_pos hlt]
        rw [List.pairwise_cons]
        refine ⟨?_, ih hxs⟩
        intro b hb
        rcases List.mem_cons.mp ((insLesson_perm e xs).mem_iff.mp hb) with hb1 | hb1
        · subst hb1; exact Nat.le_of_lt hlt
        · exact hx b hb1
      · simp only [insLesson, if_neg hlt]
        rw [List.pairwise_cons]
        refine ⟨?_, List.pairwise_cons.mpr ⟨hx, hxs⟩⟩
        intro b hb
        rcases List.mem_cons.mp hb with hb1 | hb1
        · subst hb1; exact Nat.le_of_not_lt hlt
        · exact Nat.le_trans (Nat.le_of_not_lt hlt) (hx b hb1)

theorem sortLessons_pairwise : ∀ l : List LessonEntry,
    (sortLessons l).Pairwise (fun a b => lessonKey a ≤ lessonKey b) := by
  intro l
  induction l with
  | nil => simp [sortLessons]
  | cons x xs ih => exact insLesson_pairwise x (sortLessons xs) ih

theorem insLesson_filter_key_eq {e : LessonEntry} {k : Nat}
    (he : lessonKey e = k) :
    ∀ l : List LessonEntry, (insLesson e l).filter (fun a => lessonKey a = k) =
      e :: l.filter (fun a => lessonKey a = k) := by
  intro l
  induction l with
  | nil => simp [insLesson, List.filter, he]
  | cons x xs ih =>
      by_cases hlt : extract_number x.lesson < extract_number e.lesson
      · have hxk : ¬ (lessonKey x = k) := by
          simp only [lessonKey] at he ⊢; omega
        simp [insLesson, if_pos hlt, List.filter_cons, hxk, ih]
      · simp [insLesson, if_neg hlt, List.filter_cons, he]

theorem insLesson_filter_key_ne {e : LessonEntry} {k : Nat}
    (he : lessonKey e ≠ k) :
    ∀ l : List LessonEntry, (insLesson e l).filter (fun a => lessonKey a = k) =
      l.filter (fun a => lessonKey a = k) := by
  intro l
  induction l with
  | nil => simp [insLesson, List.filter, he]
  | cons x xs ih =>
      by_cases hlt : extract_number x.lesson < extract_number e.lesson
      · simp only [insLesson, if_pos hlt, List.filter_cons, ih]
      · simp [insLesson, if_neg hlt, List.filter_cons, he]

/-- Stability: the sort preserves the relative order of entries whose keys
are equal. -/
theorem sortLessons_filter_key (k : Nat) : ∀ l : List LessonEntry,
    (sortLessons l).filter (fun a => lessonKey a = k) =
      l.filter (fun a => lessonKey a = k) := by
  intro l
  induction l with
  | nil => simp [sortLessons]
  | cons x xs ih =>
      by_cases hx : lessonKey x = k
      · rw [sortLessons, insLesson_filter_key_eq hx, ih, List.filter_cons,
          if_pos (by simp [hx])]
      · rw [sortLessons, insLesson_filter_key_ne hx, ih, List.filter_cons,
          if_neg (by simp [hx])]

theorem findGroup_pushGroup (m : List (Str × List Event)) (q : Str) (r : Event)
    (p : Str) :
    findGroup (pushGroup m q r) p =
      if q = p then some ((findGroup m p).getD [] ++ [r]) else findGroup m p := by
  induction m with
  | nil =>
      by_cases h : q = p
      · simp [pushGroup, findGroup, h]
      · simp [pushGroup, findGroup, h]
  | cons g rest ih =>
      obtain ⟨q', es⟩ := g
      by_cases h1 : q' = q
      · subst h1
        by_cases h2 : q' = p
        · subst h2; simp [pushGroup, findGroup]
        · simp [pushGroup, findGroup, h2]
      · by_cases h2 : q' = p
        · subst h2
          have hqp : q ≠ q' := fun h => h1 h.symm
          simp [pushGroup, findGroup, h1, hqp]
        · simp [pushGroup, findGroup, h1, h2, ih]

theorem findGroup_foldl (p : Str) : ∀ (records : List Event) (m : List (Str × List Event)),
    findGroup (records.foldl (fun acc r => pushGroup acc r.phone_number r) m) p =
      combineGroup (findGroup m p) (records.filter (fun r => r.phone_number = p)) := by
  intro records
  induction records with
  | nil =>
      intro m
      simp only [List.foldl_nil, List.filter_nil]
      cases findGroup m p <;> simp [combineGroup]
  | cons r rest ih =>
      intro m
      simp only [List.foldl_cons, List.filter_cons]
      rw [ih]
      rw [findGroup_pushGroup]
      by_cases h : r.phone_number = p
      · rw [if_pos h, if_pos (by simp [h])]
        cases hm : findGroup m p with
        | none => simp [combineGroup]
        | some es =>
            simp only [combineGroup, Option.getD_some]
            cases rest.filter (fun x => x.phone_number = p) <;> simp
      · rw [if_neg h, if_neg (by simp [h])]

theorem pushGroup_countP_sum (p : Event → Bool) (q : Str) (r : Event) :
    ∀ m : List (Str × List Event),
      ((pushGroup m q r).map (fun g => g.2.countP p)).sum =
        (m.map (fun g => g.2.countP p)).sum + [r].countP p := by
  intro m
  induction m with
  | nil => simp [pushGroup]
  | cons g rest ih =>
      obtain ⟨q', es⟩ := g
      by_cases h : q' = q
      · simp only [pushGroup, if_pos h, List.map_cons, List.sum_cons,
          List.countP_append]
        omega
      · simp only [pushGroup, if_neg h, List.map_cons, List.sum_cons, ih]
        omega

theorem aggregate_countP_sum (p : Event → Bool) :
    ∀ (records : List Event) (m : List (Str × List Event)),
      (((records.foldl (fun acc r => pushGroup acc r.phone_number r) m)).map
          (fun g => g.2.countP p)).sum =
        (m.map (fun g => g.2.countP p)).sum + records.countP p := by
  intro records
  induction records with
  | nil => simp
  | cons r rest ih =>
      intro m
      simp only [List.foldl_cons, List.countP_cons]
      rw [ih, pushGroup_countP_sum]
      simp [List.countP_cons]
      omega

theorem loadStep_fold (db : Str → Option StudentRec) :
    ∀ (gs : List (Str × List Event)) (stats : BatchStats),
      (∀ g ∈ gs, (process g.2 (groupExisting db g.2)).isOk = true) →
      ((gs.foldl (loadStep db) stats).messages_loaded =
          stats.messages_loaded +
            (gs.map (fun g => g.2.countP (fun m => m.message_type = MType.message))).sum ∧
        (gs.foldl (loadStep db) stats).practices_loaded =
          stats.practices_loaded +
            (gs.map (fun g => g.2.countP (fun m => m.message_type = MType.practice))).sum) := by
  intro gs
  induction gs with
  | nil => intro stats _; simp
  | cons g rest ih =>
      intro stats h
      have hg := h g (List.mem_cons_self g rest)
      have hrest := fun g' hg' => h g' (List.mem_cons_of_mem g hg')
      simp only [List.foldl_cons, List.map_cons, List.sum_cons]
      cases hpr : process g.2 (groupExisting db g.2) with
      | error e => rw [hpr] at hg; simp [Except.isOk, Except.toBool] at hg
      | ok u =>
          have := ih ({ stats with
            students_processed := stats.students_processed + 1
            new_students := if u.is_new then stats.new_students + 1 else stats.new_students
            updated_students := if u.is_new then stats.updated_students else stats.updated_students + 1
            messages_loaded := stats.messages_loaded +
              g.2.countP (fun m => m.message_type = MType.message)
            practices_loaded := stats.practices_loaded +
              g.2.countP (fun m => m.message_type = MType.practice) }) hrest
          simp only [loadStep, hpr]
          dsimp only at this ⊢
          omega

/-! ## Claims -/

/-- Claim C1, counterexample: two practice events for the same student and
lesson, one ordering a permutation of the other, merge to different final
records — the engine has no internal sort by `occurred_at`, so the
later-arriving older event is skipped in one ordering and counted in the
other. -/
theorem claim_C1_counterexample :
    List.Perm [exEv "5" .practice exT1230, exEv "5" .practice exT1300]
      [exEv "5" .practice exT1300, exEv "5" .practice exT1230] ∧
    (process [exEv "5" .practice exT1230, exEv "5" .practice exT1300] none).toOption.map
        (fun u => u.lessons.map (fun e => e.practice_count)) ≠
      (process [exEv "5" .practice exT1300, exEv "5" .practice exT1230] none).toOption.map
        (fun u => u.lessons.map (fun e => e.practice_count)) := by
  constructor
  · exact List.Perm.swap _ _ _
  · decide

/-- Claim C1 (amended): the engine processes the batch in caller order with
no internal sort; a practice event whose timestamp is below the batch-local
high-water mark set by an earlier event of the batch is silently skipped, so
the ascending ordering counts two practices where the descending ordering
counts one. -/
theorem claim_C1 :
    (process [exEv "5" .practice exT1230, exEv "5" .practice exT1300] none).toOption.map
        (fun u => u.lessons.map (fun e => (e.practice_count, e.last_practice))) =
      some [(some 2, some (.vStr "13:00, 02.12.2025".data))] ∧
    (process [exEv "5" .practice exT1300, exEv "5" .practice exT1230] none).toOption.map
        (fun u => u.lessons.map (fun e => (e.practice_count, e.last_practice))) =
      some [(some 1, some (.vStr "13:00, 02.12.2025".data))] := by
  constructor <;> decide

/-- Claim C4: a practice event routed to an existing lesson entry whose
`last_practice` is present but `None` (as every message-created entry is)
does not accept or silently skip — `ts > lesson_entry.get('last_practice',
datetime.min)` raises `TypeError` (comparing `datetime` with `None`) and the
whole student merge aborts. -/
theorem claim_C4 :
    process [exEv "3" .message exT1000, exEv "3" .practice exT1005] none =
      .error () := by
  rfl

/-- Claim C7, counterexample: two events sharing a phone number but with
different display names are put in the *same* group by
`aggregate_student_updates`, which keys groups by `phone_number` alone. -/
theorem claim_C7_counterexample :
    (exEv "1" .message exT1000).phone_number = exEvOtherName.phone_number ∧
    (exEv "1" .message exT1000).name ≠ exEvOtherName.name ∧
    aggregate_student_updates [exEv "1" .message exT1000, exEvOtherName] =
      [("p1".data, [exEv "1" .message exT1000, exEvOtherName])] := by
  refine ⟨by decide, by decide, by decide⟩

/-- Claim C7 (amended): the Batch Aggregator groups the flat event list by
`phone_number` alone (the display name is ignored), preserving within-group
relative order: the group stored under phone `p` is exactly the subsequence
of input records whose phone is `p`. -/
theorem claim_C7 (records : List Event) (p : Str) :
    findGroup (aggregate_student_updates records) p =
      combineGroup none (records.filter (fun r => r.phone_number = p)) := by
  simpa [findGroup] using findGroup_foldl p records []

/-- Claim C8, counterexample: for an instant with a non-zero seconds
component the codec round-trip succeeds but is not within-second-equal to
the input — `format_timestamp` truncates to minute precision, so
`16:15:42` comes back as `16:15:00`. -/
theorem claim_C8_counterexample :
    parse_timestamp (format_timestamp exTSec) = some exTSec.truncMin ∧
    ¬ withinSecondEq exTSec.truncMin exTSec := by
  constructor
  · decide
  · decide

/-- Claim C8 (amended): for every valid instant `x`, `parse(format(x))`
succeeds (the codec accepts its own canonical zero-padded output) and the
result is within-minute-equal to `x`: it is exactly `x` with the seconds
field zeroed. -/
theorem claim_C8 (t : Time) (h : t.Valid) :
    parse_timestamp (format_timestamp t) = some t.truncMin ∧
    t.truncMin.hour = t.hour ∧ t.truncMin.minute = t.minute ∧
    t.truncMin.day = t.day ∧ t.truncMin.month = t.month ∧
    t.truncMin.year = t.year :=
  ⟨parse_format h, rfl, rfl, rfl, rfl, rfl⟩

/-- Concrete instantiation of `claim_C8` at `10:00, 02.12.2025`. -/
theorem claim_C8_witness :
    exT1000.Valid ∧
    parse_timestamp (format_timestamp exT1000) = some exT1000.truncMin :=
  ⟨by decide, (claim_C8 exT1000 (by decide)).1⟩

/-- Claim C9, counterexample: the label `"10000"` concatenates to the
integer 10000, which is larger than the fallback key 9999 given to the
digitless label `"intro"`, so the digitless label serializes *before* the
numbered one — digitless labels do not sort after all numbered labels. -/
theorem claim_C9_counterexample :
    ("intro".data.filter isDig = []) ∧
    ("10000".data.filter isDig ≠ []) ∧
    (sortLessons [zeroLesson "10000".data "T1".data,
        zeroLesson "intro".data "T1".data]).map (fun e => e.lesson) =
      ["intro".data, "10000".data] := by
  refine ⟨by decide, by decide, by decide⟩

/-- Claim C9 (amended): the serialized lesson list is stably sorted
ascending by the integer formed by concatenating the digits of the label,
with digitless labels given the fixed fallback key 9999 — hence after all
labels whose digit-value is below 9999 (and in original relative order among
equal keys) but not after labels whose digit-value reaches 9999; the
scenario "שיעור 2", "שיעור 10", "intro" serializes in that order. -/
theorem claim_C9 :
    (∀ l : List LessonEntry,
        (sortLessons l).Pairwise (fun a b => lessonKey a ≤ lessonKey b)) ∧
    (∀ l : List LessonEntry, (sortLessons l).Perm l) ∧
    (∀ (l : List LessonEntry) (k : Nat),
        (sortLessons l).filter (fun a => lessonKey a = k) =
          l.filter (fun a => lessonKey a = k)) ∧
    (∀ lab : Str, lab.filter isDig = [] → extract_number lab = 9999) ∧
    (sortLessons [zeroLesson "שיעור 2".data "T1".data,
        zeroLesson "שיעור 10".data "T1".data,
        zeroLesson "intro".data "T1".data]).map (fun e => e.lesson) =
      ["שיעור 2".data, "שיעור 10".data, "intro".data] := by
  refine ⟨sortLessons_pairwise, sortLessons_perm,
    fun l k => sortLessons_filter_key k l, fun lab h => ?_, by decide⟩
  simp [extract_number, h]

/-- Concrete instantiation of `claim_C9`'s digitless-label clause. -/
theorem claim_C9_witness :
    extract_number "intro".data = 9999 ∧
    (sortLessons []).Perm ([] : List LessonEntry) :=
  ⟨claim_C9.2.2.2.1 "intro".data (by decide), claim_C9.2.1 []⟩

/-- Claim C5, counterexample: a batch of two identical practice events for
one new student reports `practices_loaded = 2` (the raw input count) while
the student's merge actually incorporated a single practice. -/
theorem claim_C5_counterexample :
    (load (fun _ => none)
        [exEv "1" .practice exT1000, exEv "1" .practice exT1000]).practices_loaded = 2 ∧
    (process [exEv "1" .practice exT1000, exEv "1" .practice exT1000] none).toOption.map
        sumPrac = some 1 := by
  refine ⟨by decide, by decide⟩

/-- Claim C5 (amended): the per-batch `messages_loaded`/`practices_loaded`
aggregates are the *raw* per-kind input counts of the batch (summed over the
students whose merge succeeded), independent of how many events each merge
actually incorporated; when every student's merge succeeds they equal the
raw per-kind totals of the whole batch. -/
theorem claim_C5 (db : Str → Option StudentRec) (records : List Event)
    (h : ∀ g ∈ aggregate_student_updates records,
        (process g.2 (groupExisting db g.2)).isOk = true) :
    (load db records).messages_loaded =
        records.countP (fun r => r.message_type = MType.message) ∧
    (load db records).practices_loaded =
        records.countP (fun r => r.message_type = MType.practice) := by
  by_cases hrec : records.isEmpty
  · have : records = [] := List.isEmpty_iff.mp hrec
    subst this
    simp [load, BatchStats.zero]
  · have h1 := (loadStep_fold db (aggregate_student_updates records) .zero h).1
    have h2 := (loadStep_fold db (aggregate_student_updates records) .zero h).2
    have hm := aggregate_countP_sum (fun r => r.message_type = MType.message) records []
    have hp := aggregate_countP_sum (fun r => r.message_type = MType.practice) records []
    simp only [load, if_neg hrec]
    constructor
    · rw [h1]
      simpa [aggregate_student_updates, BatchStats.zero] using hm
    · rw [h2]
      simpa [aggregate_student_updates, BatchStats.zero] using hp

/-- Concrete instantiation of `claim_C5` on a two-event batch. -/
theorem claim_C5_witness :
    (load (fun _ => none) [exEv "1" .practice exT1230, exEv "1" .message exT1300]).messages_loaded =
      [exEv "1" .practice exT1230, exEv "1" .message exT1300].countP
        (fun r => r.message_type = MType.message) :=
  (claim_C5 (fun _ => none) [exEv "1" .practice exT1230, exEv "1" .message exT1300]
    (by decide)).1

/-- Claim C10, counterexample: an historical lesson document that carries
only its label (no `practice_count` key) is emitted by the merge still
without a `practice_count` field — the sanitizer only coerces
`practice_count` when the key is present, unlike `message_count`/`paid`
which are backfilled. -/
theorem claim_C10_counterexample :
    (process [exEv "1" .message exT1000] (some ⟨none, none, some [exRawBare]⟩)).toOption.map
        (fun u => u.lessons.map (fun e => (e.practice_count, e.message_count, e.paid))) =
      some [(none, 1, false)] := by
  decide

/-- Claim C2, counterexample: merging the single practice event at
`16:15:42` into an existing empty record accepts it (count 1), but merging
the same batch again into the produced record accepts it a second time
(count 2): the stored high-water mark was truncated to `16:15` by
`format_timestamp`, so the event's `occurred_at` still exceeds it. -/
theorem claim_C2_counterexample :
    (process [exEv "1" .practice exTSec] (some exRecEmpty)).toOption.map sumPrac =
      some 1 ∧
    ((process [exEv "1" .practice exTSec] (some exRecEmpty)).toOption.bind
        (fun u1 =>
          (process [exEv "1" .practice exTSec]
            (some (applyUpsert (some exRecEmpty) u1))).toOption)).map sumPrac =
      some 2 := by
  refine ⟨by decide, by decide⟩

/-- Claim C6, counterexample: with an existing record whose only stored
lesson is "1" and whose practice mark is `09:00, 01.01.2025`, a batch whose
single practice event (lesson "2", `08:30`) is stale is indeed rejected and
no mark is written — but the lessons array still changes: the batch's
current lesson "2" is auto-added as a zero-state entry. -/
theorem claim_C6_counterexample :
    parse_timestamp "09:00, 01.01.2025".data = some exT0900 ∧
    exT0830.key ≤ exT0900.key ∧
    (exRecB.lessons.map (fun raws => raws.map (fun r => r.lesson))) =
      some [some "1".data] ∧
    (process [exEv "2" .practice exT0830] (some exRecB)).toOption.map
        (fun u => (u.lessons.map (fun e => e.lesson), u.last_practice_timedate,
          u.last_message_timedate)) =
      some (["1".data, "2".data], none, none) := by
  refine ⟨by decide, by decide, by decide, by decide⟩

theorem except_ok_bind {α β : Type} (a : α) (k : α → Except Unit β) :
    (Except.ok a >>= k) = k a := rfl

theorem except_isOk_exists {α : Type} {m : Except Unit α} (h : m.isOk = true) :
    ∃ a, m = .ok a := by
  cases m with
  | error e => simp [Except.isOk, Except.toBool] at h
  | ok a => exact ⟨a, rfl⟩

theorem procEvents_cons (exM exP : Option Val) (st : MergeState) (e : Event)
    (rest : List Event) :
    procEvents exM exP st (e :: rest) =
      (procEvent exM exP st e >>= fun s => procEvents exM exP s rest) := rfl

theorem except_bind_ok {α β : Type} {m : Except Unit α} {k : α → Except Unit β}
    {b : β} (h : (m >>= k) = Except.ok b) : ∃ a, m = .ok a ∧ k a = .ok b := by
  cases m with
  | error e => exact absurd h (by simp [Bind.bind, Except.bind])
  | ok a => exact ⟨a, rfl, h⟩

theorem process_cons (first : Event) (rest : List Event) (ex : Option StudentRec) :
    process (first :: rest) ex =
      (fetchMark (ex.bind (fun r => r.last_message_timedate)) >>= fun exM =>
       fetchMark (ex.bind (fun r => r.last_practice_timedate)) >>= fun exP =>
       procEvents exM exP ⟨loadRecLessons ex, none, none⟩ (first :: rest) >>= fun st =>
       pure { phone_number := first.phone_number
              name := first.name
              current_lesson := first.lesson
              lessons := serializeDict (autoAddCurrent st.lessons first.lesson first.teacher)
              last_message_timedate := st.lastMsg.map format_timestamp
              last_practice_timedate := st.lastPrac.map format_timestamp
              is_new := ex.isNone }) := rfl

theorem process_ok_parts {batch : List Event} {ex : Option StudentRec} {u : Upsert}
    (h : process batch ex = .ok u) :
    ∃ first rest exM exP st,
      batch = first :: rest ∧
      fetchMark (ex.bind (fun r => r.last_message_timedate)) = .ok exM ∧
      fetchMark (ex.bind (fun r => r.last_practice_timedate)) = .ok exP ∧
      procEvents exM exP ⟨loadRecLessons ex, none, none⟩ batch = .ok st ∧
      u = { phone_number := first.phone_number
            name := first.name
            current_lesson := first.lesson
            lessons := serializeDict (autoAddCurrent st.lessons first.lesson first.teacher)
            last_message_timedate := st.lastMsg.map format_timestamp
            last_practice_timedate := st.lastPrac.map format_timestamp
            is_new := ex.isNone } := by
  cases batch with
  | nil => exact absurd h (by simp [process])
  | cons first rest =>
      rw [process_cons] at h
      obtain ⟨exM, hM, h⟩ := except_bind_ok h
      obtain ⟨exP, hP, h⟩ := except_bind_ok h
      obtain ⟨st, hst, h⟩ := except_bind_ok h
      exact ⟨first, rest, exM, exP, st, rfl, hM, hP, hst, (Except.ok.inj h).symm⟩

theorem noDt_cleanVal (o : Option Val) : noDtField (cleanVal o) := by
  intro t
  match o with
  | none => simp [cleanVal]
  | some .vNone => simp [cleanVal]
  | some (.vBool b) => simp [cleanVal]
  | some (.vInt n) => simp [cleanVal]
  | some (.vStr s) => simp [cleanVal]
  | some (.vDt u) => simp [cleanVal]

/-- Claim C10 (amended): every lesson entry of the upsert payload has a
boolean `paid` and integer `message_count` by construction, and its
`first_practice`/`last_practice` fields are never raw datetime objects —
the serializer converts every datetime to the canonical string and leaves
other values (None, unparsable historical strings, or other historical
values) as they are.  (`practice_count` is an integer whenever present, but
an historical entry stored without the key into which no practice is
accepted is emitted still without it — see the counterexample.) -/
theorem claim_C10 {batch : List Event} {ex : Option StudentRec} {u : Upsert}
    (h : process batch ex = .ok u) :
    ∀ en ∈ u.lessons, noDtField en.first_practice ∧ noDtField en.last_practice := by
  obtain ⟨first, rest, exM, exP, st, hb, hM, hP, hst, hu⟩ := process_ok_parts h
  subst hu
  intro en hen
  simp only [serializeDict, List.mem_map] at hen
  obtain ⟨e0, he0, rfl⟩ := hen
  exact ⟨noDt_cleanVal _, noDt_cleanVal _⟩

/-- Concrete instantiation of `claim_C10`. -/
theorem claim_C10_witness :
    ∃ u, process [exEv "1" .message exT1000]
        (some ⟨none, none, some [exRawBare]⟩) = .ok u ∧
      ∀ en ∈ u.lessons, noDtField en.first_practice ∧ noDtField en.last_practice := by
  obtain ⟨u, hu⟩ := @except_isOk_exists Upsert
    (process [exEv "1" .message exT1000] (some ⟨none, none, some [exRawBare]⟩))
    (by decide)
  exact ⟨u, hu, claim_C10 hu⟩

theorem procEvent_stale {exM exP : Option Val} {e : Event}
    (h : staleEvent exM exP e) (st : MergeState) :
    procEvent exM exP st e = .ok st := by
  cases hmt : e.message_type with
  | other => simp [procEvent, hmt]
  | message =>
      have h1 : staleVsExisting e.ts exM = .ok true := by
        simpa [staleEvent, hmt] using h
      simp [procEvent, hmt, h1, Bind.bind, Except.bind, pure, Except.pure]
  | practice =>
      have h1 : staleVsExisting e.ts exP = .ok true := by
        simpa [staleEvent, hmt] using h
      simp [procEvent, hmt, h1, Bind.bind, Except.bind, pure, Except.pure]

theorem procEvents_stale {exM exP : Option Val} :
    ∀ (es : List Event), (∀ e ∈ es, staleEvent exM exP e) →
      ∀ st : MergeState, procEvents exM exP st es = .ok st := by
  intro es
  induction es with
  | nil => intro _ st; rfl
  | cons e rest ih =>
      intro h st
      have h1 := procEvent_stale (h e (List.mem_cons_self e rest)) st
      have h2 := ih (fun x hx => h x (List.mem_cons_of_mem e hx)) st
      rw [procEvents_cons, h1, except_ok_bind, h2]

/-- Claim C6 (amended): for an existing record whose stored lessons are in
canonical serialized form, a batch all of whose events are stale at the
student-level marks and whose triggering lesson already serializes to the
stored array produces a no-op upsert: no high-water mark is written and the
applied record is unchanged (only `updated_at` and the copied identity
fields are refreshed in the real document). -/
theorem claim_C6 {exM exP : Option Val} (first : Event) (rest : List Event)
    (R : StudentRec) (raws : List RawLesson)
    (hL : R.lessons = some raws)
    (hM : fetchMark R.last_message_timedate = .ok exM)
    (hP : fetchMark R.last_practice_timedate = .ok exP)
    (hstale : ∀ e ∈ first :: rest, staleEvent exM exP e)
    (hcanon : (serializeDict (autoAddCurrent (loadLessons raws) first.lesson
        first.teacher)).map entryToRaw = raws) :
    ∃ u, process (first :: rest) (some R) = .ok u ∧
      u.last_message_timedate = none ∧
      u.last_practice_timedate = none ∧
      u.lessons.map entryToRaw = raws ∧
      applyUpsert (some R) u = R := by
  have hd : loadRecLessons (some R) = loadLessons raws := by
    simp [loadRecLessons, hL]
  have hproc := procEvents_stale (first :: rest) hstale
    ⟨loadRecLessons (some R), none, none⟩
  refine ⟨{ phone_number := first.phone_number
            name := first.name
            current_lesson := first.lesson
            lessons := serializeDict (autoAddCurrent (loadLessons raws)
              first.lesson first.teacher)
            last_message_timedate := none
            last_practice_timedate := none
            is_new := false }, ?_, rfl, rfl, hcanon, ?_⟩
  · rw [process_cons]
    have hbm : Option.bind (some R) (fun r => r.last_message_timedate) =
        R.last_message_timedate := rfl
    have hbp : Option.bind (some R) (fun r => r.last_practice_timedate) =
        R.last_practice_timedate := rfl
    rw [hbm, hbp, hM, except_ok_bind, hP, except_ok_bind, hproc, except_ok_bind,
      hd]
    exact rfl
  · cases R with
    | mk a b c =>
        simp only [applyUpsert, hcanon]
        simp only [StudentRec.mk.injEq] at hL ⊢
        exact ⟨rfl, rfl, by rw [hL]⟩

/-- Concrete instantiation of `claim_C6` on the Scenario-B record. -/
theorem claim_C6_witness :
    ∃ u, process [exEv "1" .practice exT0830] (some exRecB) = .ok u ∧
      applyUpsert (some exRecB) u = exRecB := by
  obtain ⟨u, h1, _, _, _, h5⟩ := @claim_C6 none (some (.vDt exT0900))
    (exEv "1" .practice exT0830) [] exRecB [exRawZero1] rfl (by decide)
    (by decide) (by decide) (by decide)
  exact ⟨u, h1, h5⟩

/-! ## Support lemmas for monotonicity and idempotence -/

theorem validate_some {a t : Time} (h : validate a = some t) : t.Valid ∧ a = t := by
  unfold validate at h
  split at h
  · have := Option.some.inj h
    subst this
    exact ⟨by assumption, rfl⟩
  · exact absurd h (by simp)

theorem parse_timestamp_valid {s : Str} {t : Time}
    (h : parse_timestamp s = some t) : t.Valid := by
  rw [parse_timestamp] at h
  split at h
  · rw [parseIso] at h
    obtain ⟨a, _, hv⟩ := Option.bind_eq_some.mp h
    exact (validate_some hv).1
  · rw [parseCustom] at h
    obtain ⟨a, _, hv⟩ := Option.bind_eq_some.mp h
    exact (validate_some hv).1

theorem Time.truncMin_eq_self {t : Time} (h : t.sec = 0) : t.truncMin = t := by
  cases t
  simp_all [Time.truncMin]

theorem format_truncMin (t : Time) :
    format_timestamp t.truncMin = format_timestamp t := rfl

theorem format_ne_nil (t : Time) : format_timestamp t ≠ [] := by
  simp [format_timestamp, pad2]

/-- Canonical strings parse back to exactly their minute-precision source. -/
theorem parse_format_sec0 {t : Time} (hv : t.Valid) (hs : t.sec = 0) :
    parse_timestamp (format_timestamp t) = some t := by
  rw [parse_format hv, Time.truncMin_eq_self hs]

theorem markLe_refl (a : Option Time) : markLe a a := by
  cases a <;> simp [markLe]

theorem optTimeLe_refl (a : Option Time) : optTimeLe a a := by
  cases a <;> simp [optTimeLe]

theorem optTimeLe_trans {a b c : Option Time}
    (h1 : optTimeLe a b) (h2 : optTimeLe b c) : optTimeLe a c := by
  cases a <;> cases b <;> cases c <;> (simp_all [optTimeLe]; try omega)

theorem getd_setd_self (k : Str) (v : LessonEntry) :
    ∀ d : LDict, getd (setd d k v) k = some v := by
  intro d
  induction d with
  | nil => simp [setd, getd]
  | cons kv rest ih =>
      obtain ⟨k', v'⟩ := kv
      by_cases h : k' = k
      · simp [setd, getd, h]
      · simp [setd, getd, h, ih]

theorem getd_setd_ne {k k' : Str} (h : k' ≠ k) (v : LessonEntry) :
    ∀ d : LDict, getd (setd d k v) k' = getd d k' := by
  intro d
  induction d with
  | nil =>
      simp only [setd, getd]
      rw [if_neg (fun hc : k = k' => h hc.symm)]
  | cons kv rest ih =>
      obtain ⟨k0, v0⟩ := kv
      by_cases h0 : k0 = k
      · subst h0
        simp only [setd, if_pos rfl, getd]
        rw [if_neg (fun hc : k0 = k' => h hc.symm),
          if_neg (fun hc : k0 = k' => h hc.symm)]
      · simp only [setd, if_neg h0, getd]
        by_cases h1 : k0 = k'
        · rw [if_pos h1, if_pos h1]
        · rw [if_neg h1, if_neg h1, ih]

theorem mem_setd {kv : Str × LessonEntry} {k : Str} {v : LessonEntry} :
    ∀ {d : LDict}, kv ∈ setd d k v → kv = (k, v) ∨ kv ∈ d := by
  intro d
  induction d with
  | nil => intro h; simp [setd] at h; exact Or.inl h
  | cons kv0 rest ih =>
      intro h
      obtain ⟨k0, v0⟩ := kv0
      by_cases h0 : k0 = k
      · simp only [setd, if_pos h0, List.mem_cons] at h
        rcases h with h | h
        · exact Or.inl h
        · exact Or.inr (List.mem_cons_of_mem _ h)
      · simp only [setd, if_neg h0, List.mem_cons] at h
        rcases h with h | h
        · exact Or.inr (by simp [h])
        · rcases ih h with h1 | h1
          · exact Or.inl h1
          · exact Or.inr (List.mem_cons_of_mem _ h1)

theorem getd_none_iff (k : Str) :
    ∀ d : LDict, getd d k = none ↔ k ∉ d.map Prod.fst := by
  intro d
  induction d with
  | nil => simp [getd]
  | cons kv rest ih =>
      obtain ⟨k0, v0⟩ := kv
      simp only [getd, List.map_cons, List.mem_cons]
      by_cases h0 : k0 = k
      · subst h0
        rw [if_pos rfl]
        constructor
        · intro hc
          exact absurd hc (by simp)
        · intro hc
          exact absurd (Or.inl rfl) hc
      · rw [if_neg h0, ih]
        simp only [not_or]
        constructor
        · intro hh
          exact ⟨fun hc => h0 hc.symm, hh⟩
        · intro hh
          exact hh.2

theorem setd_map_fst_of_some {k : Str} {v : LessonEntry} :
    ∀ {d : LDict}, getd d k ≠ none →
      (setd d k v).map Prod.fst = d.map Prod.fst := by
  intro d
  induction d with
  | nil => intro h; simp [getd] at h
  | cons kv rest ih =>
      intro h
      obtain ⟨k0, v0⟩ := kv
      by_cases h0 : k0 = k
      · simp [setd, h0]
      · simp only [getd, if_neg h0] at h
        simp [setd, h0, ih h]

theorem setd_map_fst_of_none {k : Str} {v : LessonEntry} :
    ∀ {d : LDict}, getd d k = none →
      (setd d k v).map Prod.fst = d.map Prod.fst ++ [k] := by
  intro d
  induction d with
  | nil => intro _; simp [setd]
  | cons kv rest ih =>
      intro h
      obtain ⟨k0, v0⟩ := kv
      by_cases h0 : k0 = k
      · simp [getd, h0] at h
      · simp only [getd, if_neg h0] at h
        simp [setd, h0, ih h]

theorem dictWF_setd {d : LDict} {k : Str} {v : LessonEntry}
    (h : dictWF d) (hv : v.lesson = k) : dictWF (setd d k v) := by
  obtain ⟨hnd, hlab⟩ := h
  constructor
  · by_cases hk : getd d k = none
    · rw [setd_map_fst_of_none hk]
      have : k ∉ d.map Prod.fst := (getd_none_iff k d).mp hk
      simp [List.nodup_append, hnd, this]
    · rw [setd_map_fst_of_some hk]
      exact hnd
  · intro kv hkv
    rcases mem_setd hkv with h1 | h1
    · rw [h1]; exact hv
    · exact hlab kv h1

theorem getd_mem {k : Str} {v : LessonEntry} :
    ∀ {d : LDict}, getd d k = some v → (k, v) ∈ d := by
  intro d
  induction d with
  | nil => intro h; simp [getd] at h
  | cons kv rest ih =>
      intro h
      obtain ⟨k0, v0⟩ := kv
      by_cases h0 : k0 = k
      · subst h0
        rw [getd, if_pos rfl] at h
        have := Option.some.inj h
        subst this
        exact List.mem_cons_self _ _
      · rw [getd, if_neg h0] at h
        exact List.mem_cons_of_mem _ (ih h)

theorem raiseMark_le (m : Option Time) (ts : Time) :
    optTimeLe m (raiseMark m ts) := by
  cases m with
  | none => simp [raiseMark, optTimeLe]
  | some u =>
      by_cases h : u.key < ts.key
      · simp only [raiseMark, if_pos h, optTimeLe]
        omega
      · simp only [raiseMark, if_neg h]
        exact optTimeLe_refl _

theorem raiseMark_eq_or (m : Option Time) (ts : Time) :
    raiseMark m ts = m ∨ raiseMark m ts = some ts := by
  cases m with
  | none => exact Or.inr rfl
  | some u =>
      have hdef : raiseMark (some u) ts = if u.key < ts.key then some ts else some u := rfl
      by_cases h : u.key < ts.key
      · rw [hdef, if_pos h]
        exact Or.inr rfl
      · rw [hdef, if_neg h]
        exact Or.inl rfl

theorem WFV_vNone : WFV (some .vNone) :=
  ⟨fun _ ht => absurd (Option.some.inj ht) (by simp),
   fun _ hs => absurd (Option.some.inj hs) (by simp)⟩

theorem WFV_vDt {t : Time} (h : t.Valid) : WFV (some (.vDt t)) :=
  ⟨fun t' ht => (Val.vDt.inj (Option.some.inj ht)) ▸ h,
   fun _ hs => absurd (Option.some.inj hs) (by simp)⟩

theorem ProcSpec_refl (exM exP : Option Val) (st : MergeState) (e : Event) :
    ProcSpec exM exP st st e :=
  ⟨optTimeLe_refl _, optTimeLe_refl _, Or.inl rfl, Or.inl rfl,
   fun _ en0 h => ⟨en0, h, rfl, Or.inl rfl⟩, id, fun _ => id, fun _ => id⟩

/-- Evolution facts for the dictionary after a message-count update or an
entry creation keyed by `e.lesson` that does not change `last_practice`. -/
theorem setd_untouched_spec {st : MergeState} {key : Str} {v : LessonEntry}
    (hks : ∀ en, getd st.lessons key = some en → v.lesson = en.lesson ∧
      v.last_practice = en.last_practice)
    (hknew : getd st.lessons key = none → v.lesson = key) :
    ∀ lab en0, getd st.lessons lab = some en0 →
      ∃ en1, getd (setd st.lessons key v) lab = some en1 ∧
        en1.lesson = en0.lesson ∧ en1.last_practice = en0.last_practice := by
  intro lab en0 hlab
  by_cases hl : lab = key
  · subst hl
    obtain ⟨hv1, hv2⟩ := hks en0 hlab
    exact ⟨v, getd_setd_self _ _ _, hv1, hv2⟩
  · exact ⟨en0, by rw [getd_setd_ne hl _ _]; exact hlab, rfl, rfl⟩

theorem procEvent_spec {exM exP : Option Val} {st st' : MergeState} {e : Event}
    (h : procEvent exM exP st e = .ok st') : ProcSpec exM exP st st' e := by
  cases hmt : e.message_type with
  | other =>
      simp only [procEvent, hmt] at h
      have hss := Except.ok.inj h
      subst hss
      exact ProcSpec_refl _ _ _ _
  | message =>
      simp only [procEvent, hmt] at h
      obtain ⟨s1, hs1, h⟩ := except_bind_ok h
      cases s1 with
      | true =>
          simp only [reduceIte] at h
          have hss := Except.ok.inj h
          subst hss
          exact ProcSpec_refl _ _ _ _
      | false =>
          simp only [Bool.false_eq_true, reduceIte] at h
          split at h
          · have hss := Except.ok.inj h
            subst hss
            exact ProcSpec_refl _ _ _ _
          · cases hg : getd st.lessons e.lesson with
            | some en =>
                simp only [hg] at h
                have hss := Except.ok.inj h
                subst hss
                refine ⟨raiseMark_le _ _, optTimeLe_refl _, ?_, Or.inl rfl,
                  ?_, ?_, ?_, ?_⟩
                · rcases raiseMark_eq_or st.lastMsg e.ts with hr | hr
                  · exact Or.inl hr
                  · exact Or.inr ⟨hr, hmt, hs1⟩
                · intro lab en0 hlab
                  obtain ⟨en1, h1, h2, h3⟩ := @setd_untouched_spec st e.lesson
                    { en with message_count := en.message_count + 1 }
                    (fun en' hen' => by
                      rw [hg] at hen'
                      have he := Option.some.inj hen'
                      subst he
                      exact ⟨rfl, rfl⟩)
                    (fun hc => by rw [hg] at hc; cases hc) lab en0 hlab
                  exact ⟨en1, h1, h2, Or.inl h3⟩
                · intro hwf
                  exact dictWF_setd hwf (hwf.2 (e.lesson, en) (getd_mem hg))
                · intro _ hfo kv hkv
                  rcases mem_setd hkv with h1 | h1
                  · rw [h1]
                    exact hfo (e.lesson, en) (getd_mem hg)
                  · exact hfo kv h1
                · intro _ hvw kv hkv
                  rcases mem_setd hkv with h1 | h1
                  · rw [h1]
                    exact hvw (e.lesson, en) (getd_mem hg)
                  · exact hvw kv h1
            | none =>
                simp only [hg] at h
                have hss := Except.ok.inj h
                subst hss
                refine ⟨raiseMark_le _ _, optTimeLe_refl _, ?_, Or.inl rfl,
                  ?_, ?_, ?_, ?_⟩
                · rcases raiseMark_eq_or st.lastMsg e.ts with hr | hr
                  · exact Or.inl hr
                  · exact Or.inr ⟨hr, hmt, hs1⟩
                · intro lab en0 hlab
                  obtain ⟨en1, h1, h2, h3⟩ := @setd_untouched_spec st e.lesson
                    (newMsgLesson e)
                    (fun en' hen' => by rw [hg] at hen'; cases hen')
                    (fun _ => rfl) lab en0 hlab
                  exact ⟨en1, h1, h2, Or.inl h3⟩
                · intro hwf
                  exact dictWF_setd hwf rfl
                · intro _ hfo kv hkv
                  rcases mem_setd hkv with h1 | h1
                  · rw [h1]
                    exact Or.inl rfl
                  · exact hfo kv h1
                · intro _ hvw kv hkv
                  rcases mem_setd hkv with h1 | h1
                  · rw [h1]
                    exact ⟨WFV_vNone, WFV_vNone⟩
                  · exact hvw kv h1
  | practice =>
      simp only [procEvent, hmt] at h
      obtain ⟨s1, hs1, h⟩ := except_bind_ok h
      cases s1 with
      | true =>
          simp only [reduceIte] at h
          have hss := Except.ok.inj h
          subst hss
          exact ProcSpec_refl _ _ _ _
      | false =>
          simp only [Bool.false_eq_true, reduceIte] at h
          split at h
          · have hss := Except.ok.inj h
            subst hss
            exact ProcSpec_refl _ _ _ _
          · cases hg : getd st.lessons e.lesson with
            | some en =>
                simp only [hg] at h
                obtain ⟨acc, hacc, h⟩ := except_bind_ok h
                cases acc with
                | false =>
                    simp only [Bool.false_eq_true, reduceIte] at h
                    have hss := Except.ok.inj h
                    subst hss
                    exact ProcSpec_refl _ _ _ _
                | true =>
                    simp only [reduceIte] at h
                    have hss := Except.ok.inj h
                    subst hss
                    have hlt : ∀ t0, en.last_practice = some (.vDt t0) →
                        t0.key < e.ts.key := by
                      intro t0 ht0
                      rw [ht0] at hacc
                      simp only [pyGtField] at hacc
                      have := Except.ok.inj hacc
                      exact of_decide_eq_true this
                    refine ⟨optTimeLe_refl _, raiseMark_le _ _, Or.inl rfl, ?_,
                      ?_, ?_, ?_, ?_⟩
                    · rcases raiseMark_eq_or st.lastPrac e.ts with hr | hr
                      · exact Or.inl hr
                      · exact Or.inr ⟨hr, hmt, hs1⟩
                    · intro lab en0 hlab
                      dsimp only
                      by_cases hl : lab = e.lesson
                      · subst hl
                        have he : en = en0 := Option.some.inj (hg.symm.trans hlab)
                        subst he
                        refine ⟨_, getd_setd_self _ _ _, rfl, Or.inr ⟨rfl, hmt, hlt⟩⟩
                      · exact ⟨en0, by rw [getd_setd_ne hl _ _]; exact hlab, rfl,
                          Or.inl rfl⟩
                    · intro hwf
                      dsimp only
                      refine dictWF_setd hwf ?_
                      exact hwf.2 (e.lesson, en) (getd_mem hg)
                    · intro hvld hfo
                      dsimp only
                      intro kv hkv
                      rcases mem_setd hkv with h1 | h1
                      · rw [h1]
                        exact Or.inr ⟨e.ts, hvld, rfl⟩
                      · exact hfo kv h1
                    · intro hvld hvw
                      dsimp only
                      intro kv hkv
                      rcases mem_setd hkv with h1 | h1
                      · rw [h1]
                        refine ⟨?_, WFV_vDt hvld⟩
                        show WFV (if optTruthy en.first_practice = true then
                          en.first_practice else some (.vDt e.ts))
                        by_cases ht : optTruthy en.first_practice = true
                        · rw [if_pos ht]
                          exact (hvw (e.lesson, en) (getd_mem hg)).1
                        · rw [if_neg ht]
                          exact WFV_vDt hvld
                      · exact hvw kv h1
            | none =>
                simp only [hg] at h
                have hss := Except.ok.inj h
                subst hss
                refine ⟨optTimeLe_refl _, raiseMark_le _ _, Or.inl rfl, ?_,
                  ?_, ?_, ?_, ?_⟩
                · rcases raiseMark_eq_or st.lastPrac e.ts with hr | hr
                  · exact Or.inl hr
                  · exact Or.inr ⟨hr, hmt, hs1⟩
                · intro lab en0 hlab
                  dsimp only
                  by_cases hl : lab = e.lesson
                  · subst hl
                    rw [hg] at hlab
                    cases hlab
                  · exact ⟨en0, by rw [getd_setd_ne hl _ _]; exact hlab, rfl,
                      Or.inl rfl⟩
                · intro hwf
                  dsimp only
                  exact dictWF_setd hwf rfl
                · intro hvld hfo
                  dsimp only
                  intro kv hkv
                  rcases mem_setd hkv with h1 | h1
                  · rw [h1]
                    exact Or.inr ⟨e.ts, hvld, rfl⟩
                  · exact hfo kv h1
                · intro hvld hvw
                  dsimp only
                  intro kv hkv
                  rcases mem_setd hkv with h1 | h1
                  · rw [h1]
                    exact ⟨WFV_vDt hvld, WFV_vDt hvld⟩
                  · exact hvw kv h1

theorem procEvents_spec {exM exP : Option Val} :
    ∀ (es : List Event) (st st' : MergeState),
      procEvents exM exP st es = .ok st' → ProcsSpec exM exP es st st' := by
  intro es
  induction es with
  | nil =>
      intro st st' h
      have hss := Except.ok.inj h
      subst hss
      exact ⟨optTimeLe_refl _, optTimeLe_refl _, Or.inl rfl, Or.inl rfl,
        fun _ en0 h0 => ⟨en0, h0, rfl, Or.inl rfl⟩, id, fun _ => id, fun _ => id⟩
  | cons e rest ih =>
      intro st st' h
      rw [procEvents_cons] at h
      obtain ⟨st1, h1, h2⟩ := except_bind_ok h
      obtain ⟨a1, b1, c1, d1, e1, f1, g1, v1⟩ := procEvent_spec h1
      obtain ⟨a2, b2, c2, d2, e2, f2, g2, v2⟩ := ih st1 st' h2
      refine ⟨optTimeLe_trans a1 a2, optTimeLe_trans b1 b2, ?_, ?_, ?_,
        fun hw => f2 (f1 hw), ?_, ?_⟩
      · rcases c2 with hc | ⟨e', he', hts, hkind, hstale⟩
        · rw [hc]
          rcases c1 with hc1 | ⟨hts, hkind, hstale⟩
          · exact Or.inl hc1
          · exact Or.inr ⟨e, List.mem_cons_self e rest, hts, hkind, hstale⟩
        · exact Or.inr ⟨e', List.mem_cons_of_mem e he', hts, hkind, hstale⟩
      · rcases d2 with hc | ⟨e', he', hts, hkind, hstale⟩
        · rw [hc]
          rcases d1 with hc1 | ⟨hts, hkind, hstale⟩
          · exact Or.inl hc1
          · exact Or.inr ⟨e, List.mem_cons_self e rest, hts, hkind, hstale⟩
        · exact Or.inr ⟨e', List.mem_cons_of_mem e he', hts, hkind, hstale⟩
      · intro lab en0 hlab
        obtain ⟨en1, i1, i2, i3⟩ := e1 lab en0 hlab
        obtain ⟨en2, j1, j2, j3⟩ := e2 lab en1 i1
        refine ⟨en2, j1, j2.trans i2, ?_⟩
        rcases j3 with j3 | ⟨e', he', jts, jkind, jcond⟩
        · rw [j3]
          rcases i3 with i3 | ⟨its, ikind, icond⟩
          · exact Or.inl i3
          · exact Or.inr ⟨e, List.mem_cons_self e rest, its, ikind, icond⟩
        · refine Or.inr ⟨e', List.mem_cons_of_mem e he', jts, jkind, ?_⟩
          intro t0 ht0
          rcases i3 with i3 | ⟨its, ikind, icond⟩
          · exact jcond t0 (i3.trans ht0)
          · have hj := jcond e.ts its
            have hi := icond t0 ht0
            omega
      · intro hv hf
        exact g2 (fun x hx => hv x (List.mem_cons_of_mem e hx))
          (g1 (hv e (List.mem_cons_self e rest)) hf)
      · intro hv hw
        exact v2 (fun x hx => hv x (List.mem_cons_of_mem e hx))
          (v1 (hv e (List.mem_cons_self e rest)) hw)

theorem sanitize_none_iff (r : RawLesson) :
    sanitizeLesson r = none ↔ r.lesson = none := by
  cases hr : r.lesson <;> simp [sanitizeLesson, hr]

theorem sanitize_some_facts {r : RawLesson} {en : LessonEntry}
    (h : sanitizeLesson r = some en) :
    r.lesson = some en.lesson ∧
    en.last_practice = parseField r.last_practice := by
  cases hr : r.lesson with
  | none => rw [sanitizeLesson, hr] at h; cases h
  | some lab =>
      rw [sanitizeLesson, hr] at h
      have he := Option.some.inj h
      subst he
      exact ⟨rfl, rfl⟩

theorem getd_loadFold_no_label (lab : Str) :
    ∀ (raws : List RawLesson) (d : LDict),
      (∀ raw ∈ raws, raw.lesson ≠ some lab) →
      getd (raws.foldl loadLessonStep d) lab = getd d lab := by
  intro raws
  induction raws with
  | nil => intro d _; rfl
  | cons r rest ih =>
      intro d h
      simp only [List.foldl_cons]
      rw [ih _ (fun raw hraw => h raw (List.mem_cons_of_mem r hraw))]
      rw [loadLessonStep]
      cases hs : sanitizeLesson r with
      | none => rfl
      | some en =>
          have hlab := (sanitize_some_facts hs).1
          have hne : lab ≠ en.lesson := by
            intro hc
            exact h r (List.mem_cons_self r rest) (by rw [hlab, hc])
          exact getd_setd_ne hne _ _

theorem getd_loadFold (lab : Str) :
    ∀ (raws : List RawLesson) (d : LDict),
      (raws.map RawLesson.lesson).Nodup →
      getd (raws.foldl loadLessonStep d) lab =
        (match findRaw raws lab with
          | some raw => sanitizeLesson raw
          | none => getd d lab) := by
  intro raws
  induction raws with
  | nil => intro d _; rfl
  | cons r rest ih =>
      intro d hnd
      simp only [List.foldl_cons]
      cases hs : sanitizeLesson r with
      | none =>
          have hrl : r.lesson = none := (sanitize_none_iff r).mp hs
          have hfr : findRaw (r :: rest) lab = findRaw rest lab := by
            simp [findRaw, hrl]
          rw [hfr]
          simp only [loadLessonStep, hs]
          exact ih d (List.Nodup.of_cons hnd)
      | some en =>
          have hlab := (sanitize_some_facts hs).1
          simp only [loadLessonStep, hs]
          by_cases hl : en.lesson = lab
          · have hfr : findRaw (r :: rest) lab = some r := by
              simp [findRaw, hlab, hl]
            rw [hfr]
            have hnot : ∀ raw ∈ rest, raw.lesson ≠ some lab := by
              intro raw hraw hc
              have hmem : r.lesson ∈ rest.map RawLesson.lesson := by
                rw [hlab, hl, ← hc]
                exact List.mem_map_of_mem _ hraw
              exact (List.nodup_cons.mp hnd).1 hmem
            rw [getd_loadFold_no_label lab rest _ hnot, hl, getd_setd_self]
            exact hs.symm
          · have hfr : findRaw (r :: rest) lab = findRaw rest lab := by
              simp [findRaw, hlab, hl]
            rw [hfr, ih _ (List.Nodup.of_cons hnd)]
            cases findRaw rest lab with
            | some raw => rfl
            | none => exact getd_setd_ne (fun hc => hl hc.symm) _ _

theorem loadFold_dictWF :
    ∀ (raws : List RawLesson) (d : LDict),
      dictWF d → dictWF (raws.foldl loadLessonStep d) := by
  intro raws
  induction raws with
  | nil => intro d h; exact h
  | cons r rest ih =>
      intro d h
      simp only [List.foldl_cons]
      refine ih _ ?_
      rw [loadLessonStep]
      cases hs : sanitizeLesson r with
      | none => exact h
      | some en => exact dictWF_setd h rfl

theorem loadFold_fieldsOK :
    ∀ (raws : List RawLesson) (d : LDict),
      (∀ raw ∈ raws, wfStoredField raw.last_practice) →
      dictFieldsOK d → dictFieldsOK (raws.foldl loadLessonStep d) := by
  intro raws
  induction raws with
  | nil => intro d _ h; exact h
  | cons r rest ih =>
      intro d hwf h
      simp only [List.foldl_cons]
      refine ih _ (fun raw hraw => hwf raw (List.mem_cons_of_mem r hraw)) ?_
      rw [loadLessonStep]
      cases hs : sanitizeLesson r with
      | none => exact h
      | some en =>
          intro kv hkv
          rcases mem_setd hkv with h1 | h1
          · rw [h1]
            have hlp := (sanitize_some_facts hs).2
            rcases hwf r (List.mem_cons_self r rest) with hn | ⟨t, hv, hsec, hstr⟩
            · rw [hlp, hn]
              exact Or.inl rfl
            · rw [hlp, hstr]
              refine Or.inr ⟨t, hv, ?_⟩
              simp [parseField, parse_format_sec0 hv hsec]
          · exact h kv h1

theorem getd_autoAdd_of_some {d : LDict} {lab0 teach lab : Str} {en : LessonEntry}
    (h : getd d lab = some en) :
    getd (autoAddCurrent d lab0 teach) lab = some en := by
  rw [autoAddCurrent]
  cases hg : getd d lab0 with
  | some _ => exact h
  | none =>
      by_cases hl : lab = lab0
      · subst hl
        rw [h] at hg
        cases hg
      · rw [getd_setd_ne hl _ _]
        exact h

theorem autoAdd_dictWF {d : LDict} (lab teach : Str) (h : dictWF d) :
    dictWF (autoAddCurrent d lab teach) := by
  rw [autoAddCurrent]
  cases getd d lab with
  | some _ => exact h
  | none => exact dictWF_setd h rfl

theorem autoAdd_fieldsOK {d : LDict} (lab teach : Str) (h : dictFieldsOK d) :
    dictFieldsOK (autoAddCurrent d lab teach) := by
  rw [autoAddCurrent]
  cases getd d lab with
  | some _ => exact h
  | none =>
      intro kv hkv
      rcases mem_setd hkv with h1 | h1
      · rw [h1]
        exact Or.inl rfl
      · exact h kv h1

theorem dictWF_values_nodup {d : LDict} (h : dictWF d) :
    ((d.map Prod.snd).map LessonEntry.lesson).Nodup := by
  obtain ⟨hnd, hlab⟩ := h
  have heq : (d.map Prod.snd).map LessonEntry.lesson = d.map Prod.fst := by
    rw [List.map_map]
    exact List.map_congr_left (fun kv hkv => hlab kv hkv)
  rw [heq]
  exact hnd

theorem sortLessons_labels_nodup {l : List LessonEntry}
    (h : (l.map LessonEntry.lesson).Nodup) :
    ((sortLessons l).map LessonEntry.lesson).Nodup :=
  (((sortLessons_perm l).map LessonEntry.lesson).nodup_iff).mpr h

theorem findRaw_serialized {en : LessonEntry} {lab : Str} :
    ∀ {l : List LessonEntry}, en ∈ l → en.lesson = lab →
      (l.map LessonEntry.lesson).Nodup →
      findRaw (l.map (fun x => entryToRaw (cleanLesson x))) lab =
        some (entryToRaw (cleanLesson en)) := by
  intro l
  induction l with
  | nil => intro hmem; cases hmem
  | cons x xs ih =>
      intro hmem hlab hnd
      rw [List.map_cons, findRaw]
      have hcl : (entryToRaw (cleanLesson x)).lesson = some x.lesson := rfl
      by_cases hx : x.lesson = lab
      · rw [if_pos (by rw [hcl, hx])]
        rcases List.mem_cons.mp hmem with he | he
        · rw [he]
        · exfalso
          have hm : x.lesson ∈ xs.map LessonEntry.lesson := by
            rw [hx, ← hlab]
            exact List.mem_map_of_mem _ he
          exact (List.nodup_cons.mp hnd).1 hm
      · rw [if_neg (by rw [hcl]; simp [hx])]
        rcases List.mem_cons.mp hmem with he | he
        · exact absurd (by rw [← he]; exact hlab) hx
        · exact ih he hlab (List.nodup_cons.mp hnd).2

theorem serialized_raw_facts {d : LDict} (hfo : dictFieldsOK d) :
    ∀ raw ∈ (serializeDict d).map entryToRaw,
      (∃ lab, raw.lesson = some lab) ∧ wfStoredField raw.last_practice := by
  intro raw hraw
  rw [serializeDict] at hraw
  obtain ⟨y, hy, rfl⟩ := List.mem_map.mp hraw
  obtain ⟨x, hx, rfl⟩ := List.mem_map.mp hy
  have hxv : x ∈ d.map Prod.snd := (sortLessons_perm _).mem_iff.mp hx
  obtain ⟨kv, hkv, rfl⟩ := List.mem_map.mp hxv
  refine ⟨⟨(cleanLesson kv.2).lesson, rfl⟩, ?_⟩
  rcases hfo kv hkv with hn | ⟨t, hv, hdt⟩
  · left
    show cleanVal kv.2.last_practice = some .vNone
    rw [hn]
    rfl
  · right
    refine ⟨t.truncMin, Time.truncMin_valid hv, rfl, ?_⟩
    show cleanVal kv.2.last_practice = some (.vStr (format_timestamp t.truncMin))
    rw [hdt, format_truncMin]
    rfl

theorem serialized_labels_nodup {d : LDict} (hwf : dictWF d) :
    (((serializeDict d).map entryToRaw).map RawLesson.lesson).Nodup := by
  have h1 : ((serializeDict d).map entryToRaw).map RawLesson.lesson =
      ((sortLessons (d.map Prod.snd)).map LessonEntry.lesson).map Option.some := by
    rw [serializeDict, List.map_map, List.map_map, List.map_map]
    rfl
  rw [h1]
  exact (sortLessons_labels_nodup (dictWF_values_nodup hwf)).map
    (Option.some_injective _)

theorem stale_false_vDt {ts t : Time}
    (h : staleVsExisting ts (some (.vDt t)) = .ok false) : t.key < ts.key := by
  simp only [staleVsExisting, pyTruthy, pyLeTV, if_true] at h
  have h1 := Except.ok.inj h
  have h2 := of_decide_eq_false h1
  omega

theorem dictWF_nil : dictWF [] := ⟨List.nodup_nil, fun kv hkv => by cases hkv⟩

theorem dictFieldsOK_nil : dictFieldsOK [] := fun kv hkv => by cases hkv

theorem findRaw_mem {lab : Str} {raw : RawLesson} :
    ∀ {raws : List RawLesson}, findRaw raws lab = some raw →
      raw ∈ raws ∧ raw.lesson = some lab := by
  intro raws
  induction raws with
  | nil => intro h; cases h
  | cons r rest ih =>
      intro h
      rw [findRaw] at h
      by_cases hr : r.lesson = some lab
      · rw [if_pos hr] at h
        have := Option.some.inj h
        subst this
        exact ⟨List.mem_cons_self _ _, hr⟩
      · rw [if_neg hr] at h
        obtain ⟨h1, h2⟩ := ih h
        exact ⟨List.mem_cons_of_mem _ h1, h2⟩

theorem recMsgTime_applyUpsert (r : Option StudentRec) (u : Upsert) :
    recMsgTime (some (applyUpsert r u)) =
      (match u.last_message_timedate with
        | some s => parse_timestamp s
        | none => recMsgTime r) := by
  cases hu : u.last_message_timedate with
  | some s => simp [recMsgTime, applyUpsert, hu, valTime]
  | none =>
      cases r with
      | none => simp [recMsgTime, applyUpsert, hu]
      | some R =>
          have hfield : (applyUpsert (some R) u).last_message_timedate =
              R.last_message_timedate := by
            simp [applyUpsert, hu]
          simp only [recMsgTime, hfield]

theorem recPracTime_applyUpsert (r : Option StudentRec) (u : Upsert) :
    recPracTime (some (applyUpsert r u)) =
      (match u.last_practice_timedate with
        | some s => parse_timestamp s
        | none => recPracTime r) := by
  cases hu : u.last_practice_timedate with
  | some s => simp [recPracTime, applyUpsert, hu, valTime]
  | none =>
      cases r with
      | none => simp [recPracTime, applyUpsert, hu]
      | some R =>
          have hfield : (applyUpsert (some R) u).last_practice_timedate =
              R.last_practice_timedate := by
            simp [applyUpsert, hu]
          simp only [recPracTime, hfield]

theorem fetchMark_WFMark {o : Option Val} {exm : Option Val}
    (h : WFMark o) (hf : fetchMark o = .ok exm) :
    (o = none ∧ exm = none) ∨
    ∃ t : Time, t.Valid ∧ t.sec = 0 ∧ o = some (.vStr (format_timestamp t)) ∧
      exm = some (.vDt t) := by
  rcases h with h | ⟨t, hv, hs, h⟩
  · subst h
    exact Or.inl ⟨rfl, (Except.ok.inj hf).symm⟩
  · subst h
    have htr : pyTruthy (.vStr (format_timestamp t)) = true := by
      simp [pyTruthy, format_ne_nil t]
    rw [fetchMark, if_pos htr, parse_format_sec0 hv hs] at hf
    exact Or.inr ⟨t, hv, hs, rfl, (Except.ok.inj hf).symm⟩

theorem mergeStep_spec (r : Option StudentRec) (b : List Event)
    (hWF : WFOpt r) (hv : ∀ e ∈ b, e.ts.Valid) :
    WFOpt (mergeStep r b) ∧
    markLe (recMsgTime r) (recMsgTime (mergeStep r b)) ∧
    markLe (recPracTime r) (recPracTime (mergeStep r b)) ∧
    ∀ lab, markLe (lessonPracTime r lab) (lessonPracTime (mergeStep r b) lab) := by
  cases hp : process b r with
  | error u =>
      simp only [mergeStep, hp]
      exact ⟨hWF, markLe_refl _, markLe_refl _, fun _ => markLe_refl _⟩
  | ok u =>
      simp only [mergeStep, hp]
      obtain ⟨first, rest, exM, exP, st, hb, hM, hP, hst, hu⟩ := process_ok_parts hp
      subst hb
      obtain ⟨a1, b1, c1, d1, e1, f1, g1, v1⟩ := procEvents_spec _ _ _ hst
      have hd0wf : dictWF (loadRecLessons r) := by
        cases r with
        | none => exact dictWF_nil
        | some R =>
            obtain ⟨_, _, raws, hL, hnd, hfacts⟩ := hWF
            simp only [loadRecLessons, hL]
            exact loadFold_dictWF raws [] dictWF_nil
      have hd0fo : dictFieldsOK (loadRecLessons r) := by
        cases r with
        | none => exact dictFieldsOK_nil
        | some R =>
            obtain ⟨_, _, raws, hL, hnd, hfacts⟩ := hWF
            simp only [loadRecLessons, hL]
            exact loadFold_fieldsOK raws []
              (fun raw hraw => (hfacts raw hraw).2) dictFieldsOK_nil
      have hstwf : dictWF st.lessons := f1 hd0wf
      have hstfo : dictFieldsOK st.lessons := g1 hv hd0fo
      have hd1wf : dictWF (autoAddCurrent st.lessons first.lesson first.teacher) :=
        autoAdd_dictWF _ _ hstwf
      have hd1fo : dictFieldsOK (autoAddCurrent st.lessons first.lesson first.teacher) :=
        autoAdd_fieldsOK _ _ hstfo
      have hmsgnone : st.lastMsg = none ∨
          ∃ e ∈ first :: rest, st.lastMsg = some e.ts ∧
            staleVsExisting e.ts exM = .ok false := by
        rcases c1 with hc | ⟨e, he, hts, hkind, hstale⟩
        · exact Or.inl hc
        · exact Or.inr ⟨e, he, hts, hstale⟩
      have hpracnone : st.lastPrac = none ∨
          ∃ e ∈ first :: rest, st.lastPrac = some e.ts ∧
            staleVsExisting e.ts exP = .ok false := by
        rcases d1 with hc | ⟨e, he, hts, hkind, hstale⟩
        · exact Or.inl hc
        · exact Or.inr ⟨e, he, hts, hstale⟩
      have humsg : u.last_message_timedate = st.lastMsg.map format_timestamp := by
        rw [hu]
      have huprac : u.last_practice_timedate = st.lastPrac.map format_timestamp := by
        rw [hu]
      have hulessons : u.lessons =
          serializeDict (autoAddCurrent st.lessons first.lesson first.teacher) := by
        rw [hu]
      have hWFmarkM : WFMark (applyUpsert r u).last_message_timedate := by
        rcases hmsgnone with hm | ⟨e, he, hts, hstale⟩
        · have hf : (applyUpsert r u).last_message_timedate =
              r.bind (fun x => x.last_message_timedate) := by
            simp [applyUpsert, humsg, hm]
          rw [hf]
          cases r with
          | none => exact Or.inl rfl
          | some R => exact hWF.1
        · have hev : e.ts.Valid := hv e he
          have hf : (applyUpsert r u).last_message_timedate =
              some (.vStr (format_timestamp e.ts)) := by
            simp [applyUpsert, humsg, hts]
          rw [hf]
          exact Or.inr ⟨e.ts.truncMin, Time.truncMin_valid hev, rfl,
            by rw [format_truncMin]⟩
      have hWFmarkP : WFMark (applyUpsert r u).last_practice_timedate := by
        rcases hpracnone with hm | ⟨e, he, hts, hstale⟩
        · have hf : (applyUpsert r u).last_practice_timedate =
              r.bind (fun x => x.last_practice_timedate) := by
            simp [applyUpsert, huprac, hm]
          rw [hf]
          cases r with
          | none => exact Or.inl rfl
          | some R => exact hWF.2.1
        · have hev : e.ts.Valid := hv e he
          have hf : (applyUpsert r u).last_practice_timedate =
              some (.vStr (format_timestamp e.ts)) := by
            simp [applyUpsert, huprac, hts]
          rw [hf]
          exact Or.inr ⟨e.ts.truncMin, Time.truncMin_valid hev, rfl,
            by rw [format_truncMin]⟩
      refine ⟨⟨hWFmarkM, hWFmarkP, u.lessons.map entryToRaw, rfl, ?_, ?_⟩, ?_, ?_, ?_⟩
      · rw [hulessons]
        exact serialized_labels_nodup hd1wf
      · rw [hulessons]
        exact serialized_raw_facts hd1fo
      · -- student message mark monotone
        rw [recMsgTime_applyUpsert]
        rcases hmsgnone with hm | ⟨e, he, hts, hstale⟩
        · rw [humsg, hm]
          exact markLe_refl _
        · have hev : e.ts.Valid := hv e he
          rw [humsg, hts]
          show markLe (recMsgTime r) (parse_timestamp (format_timestamp e.ts))
          rw [parse_format hev]
          cases r with
          | none => exact trivial
          | some R =>
              obtain ⟨hWM, hWP, _⟩ := hWF
              rcases fetchMark_WFMark hWM hM with ⟨hnone, hexm⟩ |
                ⟨t, hvt, hst0, hstr, hexm⟩
              · simp [recMsgTime, hnone, markLe]
              · have hrt : recMsgTime (some R) = some t := by
                  simp [recMsgTime, hstr, valTime, parse_format_sec0 hvt hst0]
                rw [hrt]
                subst hexm
                show t.key ≤ e.ts.truncMin.key
                exact Time.le_truncMin_of_lt hst0 hev.2.2.2.2.2.2.2.2
                  (stale_false_vDt hstale)
      · -- student practice mark monotone
        rw [recPracTime_applyUpsert]
        rcases hpracnone with hm | ⟨e, he, hts, hstale⟩
        · rw [huprac, hm]
          exact markLe_refl _
        · have hev : e.ts.Valid := hv e he
          rw [huprac, hts]
          show markLe (recPracTime r) (parse_timestamp (format_timestamp e.ts))
          rw [parse_format hev]
          cases r with
          | none => exact trivial
          | some R =>
              obtain ⟨hWM, hWP, _⟩ := hWF
              rcases fetchMark_WFMark hWP hP with ⟨hnone, hexm⟩ |
                ⟨t, hvt, hst0, hstr, hexm⟩
              · simp [recPracTime, hnone, markLe]
              · have hrt : recPracTime (some R) = some t := by
                  simp [recPracTime, hstr, valTime, parse_format_sec0 hvt hst0]
                rw [hrt]
                subst hexm
                show t.key ≤ e.ts.truncMin.key
                exact Time.le_truncMin_of_lt hst0 hev.2.2.2.2.2.2.2.2
                  (stale_false_vDt hstale)
      · -- per-lesson practice marks monotone
        intro lab
        cases r with
        | none => exact trivial
        | some R =>
            obtain ⟨hWM, hWP, raws, hL, hnd, hfacts⟩ := hWF
            have hLT : lessonPracTime (some R) lab =
                (match findRaw raws lab with
                  | none => none
                  | some raw =>
                      match raw.last_practice with
                      | none => none
                      | some v => valTime v) := by
              simp [lessonPracTime, hL]
            rw [hLT]
            cases hfr : findRaw raws lab with
            | none => exact trivial
            | some raw =>
                obtain ⟨hraw_mem, hlabr⟩ := findRaw_mem hfr
                show markLe (match raw.last_practice with
                  | none => none
                  | some v => valTime v)
                  (lessonPracTime (some (applyUpsert (some R) u)) lab)
                rcases (hfacts raw hraw_mem).2 with hnone | ⟨t, hvt, hsec, hstr⟩
                · rw [hnone]
                  exact trivial
                · rw [hstr]
                  have hvt2 : valTime (.vStr (format_timestamp t)) = some t := by
                    simp [valTime, parse_format_sec0 hvt hsec]
                  show markLe (valTime (.vStr (format_timestamp t)))
                    (lessonPracTime (some (applyUpsert (some R) u)) lab)
                  rw [hvt2]
                  have hload : getd (loadRecLessons (some R)) lab =
                      sanitizeLesson raw := by
                    simp only [loadRecLessons, hL, loadLessons]
                    rw [getd_loadFold lab raws [] hnd, hfr]
                  cases hs : sanitizeLesson raw with
                  | none =>
                      exact absurd ((sanitize_none_iff raw).mp hs)
                        (by rw [hlabr]; simp)
                  | some en =>
                      have hen_lab : en.lesson = lab := by
                        have h1 := (sanitize_some_facts hs).1
                        rw [hlabr] at h1
                        exact (Option.some.inj h1).symm
                      have hen_last : en.last_practice = some (.vDt t) := by
                        rw [(sanitize_some_facts hs).2, hstr]
                        simp [parseField, parse_format_sec0 hvt hsec]
                      rw [hs] at hload
                      obtain ⟨en1, hen1, hen1lab, hen1ev⟩ := e1 lab en hload
                      have hd1get : getd (autoAddCurrent st.lessons first.lesson
                          first.teacher) lab = some en1 := getd_autoAdd_of_some hen1
                      have hfind : findRaw (u.lessons.map entryToRaw) lab =
                          some (entryToRaw (cleanLesson en1)) := by
                        rw [hulessons, serializeDict, List.map_map]
                        have hmem1 : en1 ∈ (autoAddCurrent st.lessons first.lesson
                            first.teacher).map Prod.snd := by
                          have := getd_mem hd1get
                          exact List.mem_map_of_mem Prod.snd this
                        have hmem2 : en1 ∈ sortLessons ((autoAddCurrent st.lessons
                            first.lesson first.teacher).map Prod.snd) :=
                          (sortLessons_perm _).mem_iff.mpr hmem1
                        exact findRaw_serialized hmem2 (hen1lab.trans hen_lab)
                          (sortLessons_labels_nodup (dictWF_values_nodup hd1wf))
                      have hR : lessonPracTime (some (applyUpsert (some R) u)) lab =
                          (match (entryToRaw (cleanLesson en1)).last_practice with
                            | none => none
                            | some v => valTime v) := by
                        simp [lessonPracTime, applyUpsert, hfind]
                      rw [hR]
                      rcases hen1ev with hsame | ⟨e, he, hts, hkind, hcond⟩
                      · have hlp : (entryToRaw (cleanLesson en1)).last_practice =
                            some (.vStr (format_timestamp t)) := by
                          show cleanVal en1.last_practice = _
                          rw [hsame, hen_last]
                          rfl
                        rw [hlp]
                        show markLe (some t) (valTime (.vStr (format_timestamp t)))
                        rw [hvt2]
                        show t.key ≤ t.key
                        exact Nat.le_refl _
                      · have hev : e.ts.Valid := hv e he
                        have hlt : t.key < e.ts.key := hcond t hen_last
                        have hlp : (entryToRaw (cleanLesson en1)).last_practice =
                            some (.vStr (format_timestamp e.ts)) := by
                          show cleanVal en1.last_practice = _
                          rw [hts]
                          rfl
                        rw [hlp]
                        have hvt3 : valTime (.vStr (format_timestamp e.ts)) =
                            some e.ts.truncMin := by
                          simp [valTime, parse_format hev]
                        show markLe (some t) (valTime (.vStr (format_timestamp e.ts)))
                        rw [hvt3]
                        show t.key ≤ e.ts.truncMin.key
                        exact Time.le_truncMin_of_lt hsec hev.2.2.2.2.2.2.2.2 hlt

theorem runBatches_WF :
    ∀ (bs : List (List Event)) (r : Option StudentRec), WFOpt r →
      (∀ es ∈ bs, ∀ e ∈ es, e.ts.Valid) → WFOpt (bs.foldl mergeStep r) := by
  intro bs
  induction bs with
  | nil => intro r h _; exact h
  | cons b rest ih =>
      intro r h hval
      simp only [List.foldl_cons]
      exact ih _ (mergeStep_spec r b h (hval b (List.mem_cons_self b rest))).1
        (fun es hes => hval es (List.mem_cons_of_mem _ hes))

/-- Claim C3: along every sequence of merges on one student's record
(starting from no record), the student-level `last_message_timedate` and
`last_practice_timedate` marks and every lesson's `last_practice` are
non-decreasing: appending one more batch to the sequence never moves an
observed mark backward and never writes an absent mark over a present
one.  (Timestamps are valid Python datetimes.) -/
theorem claim_C3 (bs : List (List Event)) (b : List Event)
    (hval : ∀ es ∈ bs, ∀ e ∈ es, e.ts.Valid) (hvb : ∀ e ∈ b, e.ts.Valid) :
    markLe (recMsgTime (runBatches bs)) (recMsgTime (runBatches (bs ++ [b]))) ∧
    markLe (recPracTime (runBatches bs)) (recPracTime (runBatches (bs ++ [b]))) ∧
    ∀ lab, markLe (lessonPracTime (runBatches bs) lab)
      (lessonPracTime (runBatches (bs ++ [b])) lab) := by
  have hWF : WFOpt (runBatches bs) := runBatches_WF bs none trivial hval
  have hspec := mergeStep_spec (runBatches bs) b hWF hvb
  have hrun : runBatches (bs ++ [b]) = mergeStep (runBatches bs) b := by
    simp [runBatches, List.foldl_append]
  rw [hrun]
  exact ⟨hspec.2.1, hspec.2.2.1, hspec.2.2.2⟩

/-- Concrete instantiation of `claim_C3` on a two-batch sequence. -/
theorem claim_C3_witness :
    markLe (recPracTime (runBatches [[exEv "1" .practice exT1000]]))
      (recPracTime (runBatches ([[exEv "1" .practice exT1000]] ++
        [[exEv "1" .practice exT1230]]))) :=
  (claim_C3 [[exEv "1" .practice exT1000]] [exEv "1" .practice exT1230]
    (by decide) (by decide)).2.1

theorem stale_true_form {ts : Time} {v : Option Val}
    (h : staleVsExisting ts v = .ok true) :
    ∃ t1, v = some (.vDt t1) ∧ ts.key ≤ t1.key := by
  cases v with
  | none => exact absurd (Except.ok.inj h) (by simp)
  | some w =>
      by_cases hw : pyTruthy w = true
      · rw [staleVsExisting, if_pos hw] at h
        cases w with
        | vDt u =>
            refine ⟨u, rfl, ?_⟩
            have := Except.ok.inj h
            exact of_decide_eq_true this
        | vNone => cases h
        | vBool b => cases h
        | vInt n => cases h
        | vStr s => cases h
      · rw [staleVsExisting, if_neg hw] at h
        exact absurd (Except.ok.inj h) (by simp)

theorem pyGt_false_form {ts : Time} {o : Option Val}
    (h : pyGtField ts o = .ok false) :
    ∃ dt, o = some (.vDt dt) ∧ ts.key ≤ dt.key := by
  cases o with
  | none => exact absurd (Except.ok.inj h) (by simp)
  | some w =>
      cases w with
      | vDt u =>
          refine ⟨u, rfl, ?_⟩
          have h1 := Except.ok.inj h
          have h2 := of_decide_eq_false h1
          omega
      | vNone => cases h
      | vBool b => cases h
      | vInt n => cases h
      | vStr s => cases h

theorem raiseMark_ge (m : Option Time) (ts : Time) :
    ∃ bm, raiseMark m ts = some bm ∧ ts.key ≤ bm.key := by
  cases m with
  | none => exact ⟨ts, rfl, Nat.le_refl _⟩
  | some u =>
      have hdef : raiseMark (some u) ts =
          if u.key < ts.key then some ts else some u := rfl
      by_cases h : u.key < ts.key
      · rw [hdef, if_pos h]
        exact ⟨ts, rfl, Nat.le_refl _⟩
      · rw [hdef, if_neg h]
        exact ⟨u, rfl, Nat.le_of_not_lt h⟩

theorem procEvent_markInv {exM exP : Option Val} {st st' : MergeState} {e : Event}
    (h : procEvent exM exP st e = .ok st') (hinv : MarkInv exM exP st) :
    MarkInv exM exP st' := by
  obtain ⟨_, _, c1, d1, _, _, _, _⟩ := procEvent_spec h
  constructor
  · rcases c1 with hc | ⟨hts, _, hstf⟩
    · rw [hc]; exact hinv.1
    · exact Or.inr ⟨e.ts, hts, hstf⟩
  · rcases d1 with hc | ⟨hts, _, hstf⟩
    · rw [hc]; exact hinv.2
    · exact Or.inr ⟨e.ts, hts, hstf⟩

theorem procEvent_cover_self {exM exP : Option Val} {st st' : MergeState}
    {e : Event} (h : procEvent exM exP st e = .ok st')
    (hinv : MarkInv exM exP st) : Cover exM exP st' e := by
  cases hmt : e.message_type with
  | other => simp [Cover, hmt]
  | message =>
      simp only [procEvent, hmt] at h
      obtain ⟨s1, hs1, h⟩ := except_bind_ok h
      simp only [Cover, hmt]
      cases s1 with
      | true =>
          simp only [reduceIte] at h
          have hss := Except.ok.inj h
          subst hss
          obtain ⟨t1, hv1, hle⟩ := stale_true_form hs1
          cases hm : st.lastMsg with
          | none => exact Or.inr ⟨rfl, hs1⟩
          | some bm =>
              rcases hinv.1 with hn | ⟨bm', hbm', hstf⟩
              · rw [hm] at hn; cases hn
              · rw [hm] at hbm'
                have hbe := Option.some.inj hbm'
                subst hbe
                have hlt := stale_false_vDt (hv1 ▸ hstf)
                exact Or.inl ⟨bm, rfl, by omega⟩
      | false =>
          simp only [Bool.false_eq_true, reduceIte] at h
          split at h
          · rename_i hs2
            have hss := Except.ok.inj h
            subst hss
            cases hm : st.lastMsg with
            | none => rw [hm] at hs2; simp at hs2
            | some m =>
                rw [hm] at hs2
                exact Or.inl ⟨m, rfl, by simpa using hs2⟩
          · cases hg : getd st.lessons e.lesson with
            | some en =>
                simp only [hg] at h
                have hss := Except.ok.inj h
                subst hss
                obtain ⟨bm, hbm, hle⟩ := raiseMark_ge st.lastMsg e.ts
                exact Or.inl ⟨bm, hbm, hle⟩
            | none =>
                simp only [hg] at h
                have hss := Except.ok.inj h
                subst hss
                obtain ⟨bm, hbm, hle⟩ := raiseMark_ge st.lastMsg e.ts
                exact Or.inl ⟨bm, hbm, hle⟩
  | practice =>
      simp only [procEvent, hmt] at h
      obtain ⟨s1, hs1, h⟩ := except_bind_ok h
      simp only [Cover, hmt]
      cases s1 with
      | true =>
          simp only [reduceIte] at h
          have hss := Except.ok.inj h
          subst hss
          obtain ⟨t1, hv1, hle⟩ := stale_true_form hs1
          cases hm : st.lastPrac with
          | none => exact Or.inr (Or.inl ⟨rfl, hs1⟩)
          | some bm =>
              rcases hinv.2 with hn | ⟨bm', hbm', hstf⟩
              · rw [hm] at hn; cases hn
              · rw [hm] at hbm'
                have hbe := Option.some.inj hbm'
                subst hbe
                have hlt := stale_false_vDt (hv1 ▸ hstf)
                exact Or.inl ⟨bm, rfl, by omega⟩
      | false =>
          simp only [Bool.false_eq_true, reduceIte] at h
          split at h
          · rename_i hs2
            have hss := Except.ok.inj h
            subst hss
            cases hm : st.lastPrac with
            | none => rw [hm] at hs2; simp at hs2
            | some m =>
                rw [hm] at hs2
                exact Or.inl ⟨m, rfl, by simpa using hs2⟩
          · cases hg : getd st.lessons e.lesson with
            | some en =>
                simp only [hg] at h
                obtain ⟨acc, hacc, h⟩ := except_bind_ok h
                cases acc with
                | false =>
                    simp only [Bool.false_eq_true, reduceIte] at h
                    have hss := Except.ok.inj h
                    subst hss
                    obtain ⟨dt, hdt, hle⟩ := pyGt_false_form hacc
                    exact Or.inr (Or.inr ⟨hs1, en, dt, hg, hdt, hle⟩)
                | true =>
                    simp only [reduceIte] at h
                    have hss := Except.ok.inj h
                    subst hss
                    obtain ⟨bm, hbm, hle⟩ := raiseMark_ge st.lastPrac e.ts
                    exact Or.inl ⟨bm, hbm, hle⟩
            | none =>
                simp only [hg] at h
                have hss := Except.ok.inj h
                subst hss
                obtain ⟨bm, hbm, hle⟩ := raiseMark_ge st.lastPrac e.ts
                exact Or.inl ⟨bm, hbm, hle⟩

theorem cover_preserved {exM exP : Option Val} {es : List Event}
    {st st' : MergeState} (S : ProcsSpec exM exP es st st')
    (e0 : Event) (hc : Cover exM exP st e0) : Cover exM exP st' e0 := by
  obtain ⟨a, b, c, d, ev, _, _, _⟩ := S
  cases hmt : e0.message_type with
  | other => simp [Cover, hmt]
  | message =>
      simp only [Cover, hmt] at hc ⊢
      rcases hc with ⟨bm, hbm, hle⟩ | ⟨hnone, hstale⟩
      · rw [hbm] at a
        cases hm' : st'.lastMsg with
        | none => rw [hm'] at a; cases a
        | some bm' =>
            rw [hm'] at a
            exact Or.inl ⟨bm', rfl, Nat.le_trans hle a⟩
      · rcases c with hsame | ⟨e, he, hts, hkind, hstf⟩
        · rw [hsame, hnone]
          exact Or.inr ⟨rfl, hstale⟩
        · obtain ⟨t1, hv1, hle⟩ := stale_true_form hstale
          have hlt := stale_false_vDt (hv1 ▸ hstf)
          exact Or.inl ⟨e.ts, hts, by omega⟩
  | practice =>
      simp only [Cover, hmt] at hc ⊢
      rcases hc with ⟨bm, hbm, hle⟩ | ⟨hnone, hstale⟩ | ⟨hstf, en, dt, hget, hlast, hle⟩
      · rw [hbm] at b
        cases hm' : st'.lastPrac with
        | none => rw [hm'] at b; cases b
        | some bm' =>
            rw [hm'] at b
            exact Or.inl ⟨bm', rfl, Nat.le_trans hle b⟩
      · rcases d with hsame | ⟨e, he, hts, hkind, hstf⟩
        · rw [hsame, hnone]
          exact Or.inr (Or.inl ⟨rfl, hstale⟩)
        · obtain ⟨t1, hv1, hle⟩ := stale_true_form hstale
          have hlt := stale_false_vDt (hv1 ▸ hstf)
          exact Or.inl ⟨e.ts, hts, by omega⟩
      · obtain ⟨en1, hen1, _, hev⟩ := ev e0.lesson en hget
        rcases hev with hsame | ⟨e, he, hts, hkind, hcond⟩
        · exact Or.inr (Or.inr ⟨hstf, en1, dt, hen1, by rw [hsame, hlast], hle⟩)
        · have hlt := hcond dt hlast
          exact Or.inr (Or.inr ⟨hstf, en1, e.ts, hen1, hts, by omega⟩)

theorem procEvents_cover {exM exP : Option Val} :
    ∀ (es : List Event) (st st' : MergeState),
      procEvents exM exP st es = .ok st' → MarkInv exM exP st →
      MarkInv exM exP st' ∧ ∀ e ∈ es, Cover exM exP st' e := by
  intro es
  induction es with
  | nil =>
      intro st st' h hinv
      have hss := Except.ok.inj h
      subst hss
      exact ⟨hinv, fun e he => absurd he (List.not_mem_nil e)⟩
  | cons e rest ih =>
      intro st st' h hinv
      rw [procEvents_cons] at h
      obtain ⟨st1, h1, h2⟩ := except_bind_ok h
      have hinv1 := procEvent_markInv h1 hinv
      have hcov := procEvent_cover_self h1 hinv
      obtain ⟨hinv', hrest⟩ := ih st1 st' h2 hinv1
      refine ⟨hinv', fun e0 he0 => ?_⟩
      rcases List.mem_cons.mp he0 with he0 | he0
      · subst he0
        exact cover_preserved (procEvents_spec rest st1 st' h2) e0 hcov
      · exact hrest e0 he0

theorem pyTruthy_format (t : Time) : pyTruthy (.vStr (format_timestamp t)) = true := by
  simp only [pyTruthy]
  cases hf : format_timestamp t with
  | nil => exact absurd hf (format_ne_nil t)
  | cons c cs => rfl

theorem sanitize_some_first {r : RawLesson} {en : LessonEntry}
    (h : sanitizeLesson r = some en) :
    en.first_practice = parseField r.first_practice := by
  cases hr : r.lesson with
  | none => rw [sanitizeLesson, hr] at h; cases h
  | some lab =>
      rw [sanitizeLesson, hr] at h
      have he := Option.some.inj h
      subst he
      rfl

theorem WFV_parseField {o : Option Val} (h : ∀ t, o = some (.vDt t) → t.Valid) :
    WFV (parseField o) := by
  match o with
  | none => exact ⟨fun t ht => Option.noConfusion ht, fun s hs => Option.noConfusion hs⟩
  | some .vNone =>
      exact ⟨fun t ht => Val.noConfusion (Option.some.inj ht),
        fun s hs => Val.noConfusion (Option.some.inj hs)⟩
  | some (.vBool b) =>
      exact ⟨fun t ht => Val.noConfusion (Option.some.inj ht),
        fun s hs => Val.noConfusion (Option.some.inj hs)⟩
  | some (.vInt n) =>
      exact ⟨fun t ht => Val.noConfusion (Option.some.inj ht),
        fun s hs => Val.noConfusion (Option.some.inj hs)⟩
  | some (.vDt u) =>
      have hr : parseField (some (.vDt u)) = some (.vDt u) := rfl
      rw [hr]
      refine ⟨fun t ht => ?_, fun s hs => Val.noConfusion (Option.some.inj hs)⟩
      have ht2 : u = t := Val.vDt.inj (Option.some.inj ht)
      exact ht2 ▸ h u rfl
  | some (.vStr s) =>
      have hr : parseField (some (.vStr s)) =
          match parse_timestamp s with
          | some t => some (.vDt t)
          | none => some (.vStr s) := rfl
      rw [hr]
      cases hp : parse_timestamp s with
      | some t =>
          refine ⟨fun t1 ht1 => ?_, fun s1 hs1 => Val.noConfusion (Option.some.inj hs1)⟩
          have ht2 : t = t1 := Val.vDt.inj (Option.some.inj ht1)
          exact ht2 ▸ parse_timestamp_valid hp
      | none =>
          refine ⟨fun t1 ht1 => Val.noConfusion (Option.some.inj ht1), fun s1 hs1 => ?_⟩
          have hs2 : s = s1 := Val.vStr.inj (Option.some.inj hs1)
          exact hs2 ▸ hp

theorem dictValsWF_nil : dictValsWF [] := fun kv hkv => by cases hkv

theorem loadFold_valsWF :
    ∀ (raws : List RawLesson) (d : LDict),
      (∀ raw ∈ raws, rawTimesValid raw) → dictValsWF d →
      dictValsWF (raws.foldl loadLessonStep d) := by
  intro raws
  induction raws with
  | nil => intro d _ h; exact h
  | cons r rest ih =>
      intro d hr h
      simp only [List.foldl_cons]
      refine ih _ (fun raw hraw => hr raw (List.mem_cons_of_mem r hraw)) ?_
      rw [loadLessonStep]
      cases hs : sanitizeLesson r with
      | none => exact h
      | some en =>
          intro kv hkv
          rcases mem_setd hkv with h1 | h1
          · rw [h1]
            refine ⟨?_, ?_⟩
            · show WFV en.first_practice
              rw [sanitize_some_first hs]
              exact WFV_parseField (hr r (List.mem_cons_self r rest)).1
            · show WFV en.last_practice
              rw [(sanitize_some_facts hs).2]
              exact WFV_parseField (hr r (List.mem_cons_self r rest)).2
          · exact h kv h1

theorem autoAdd_valsWF {d : LDict} (lab teach : Str) (h : dictValsWF d) :
    dictValsWF (autoAddCurrent d lab teach) := by
  unfold autoAddCurrent
  cases getd d lab with
  | some _ => exact h
  | none =>
      intro kv hkv
      rcases mem_setd hkv with h1 | h1
      · rw [h1]
        exact ⟨WFV_vNone, WFV_vNone⟩
      · exact h kv h1

theorem cleanFix_val {o : Option Val} (h : WFV o) :
    cleanVal (parseField (cleanVal o)) = cleanVal o := by
  match o with
  | none => rfl
  | some .vNone => rfl
  | some (.vBool b) => rfl
  | some (.vInt n) => rfl
  | some (.vStr s) =>
      have hp : parse_timestamp s = none := h.2 s rfl
      show cleanVal (parseField (some (.vStr s))) = some (.vStr s)
      have hr : parseField (some (.vStr s)) =
          match parse_timestamp s with
          | some t => some (.vDt t)
          | none => some (.vStr s) := rfl
      rw [hr, hp]
      rfl
  | some (.vDt t) =>
      have hv : t.Valid := h.1 t rfl
      show cleanVal (parseField (some (.vStr (format_timestamp t)))) =
        some (.vStr (format_timestamp t))
      have hr : parseField (some (.vStr (format_timestamp t))) =
          match parse_timestamp (format_timestamp t) with
          | some u => some (.vDt u)
          | none => some (.vStr (format_timestamp t)) := rfl
      rw [hr, parse_format hv]
      show (some (Val.vStr (format_timestamp t.truncMin)) : Option Val) =
        some (Val.vStr (format_timestamp t))
      rw [format_truncMin]

theorem cleanFix_lesson {e : LessonEntry} (h1 : WFV e.first_practice)
    (h2 : WFV e.last_practice) :
    cleanLesson (parseFixEntry (cleanLesson e)) = cleanLesson e := by
  cases e with
  | mk lesson teacher pc mc fp lp paid =>
      show LessonEntry.mk lesson teacher pc mc
          (cleanVal (parseField (cleanVal fp))) (cleanVal (parseField (cleanVal lp))) paid =
        LessonEntry.mk lesson teacher pc mc (cleanVal fp) (cleanVal lp) paid
      rw [cleanFix_val h1, cleanFix_val h2]

theorem sanitize_entryToRaw (en : LessonEntry) :
    sanitizeLesson (entryToRaw en) = some (parseFixEntry en) := by
  cases en with
  | mk lesson teacher pc mc fp lp paid =>
      cases pc with
      | none => rfl
      | some n => rfl

theorem setd_append_of_not_mem {d : LDict} {k : Str} (v : LessonEntry)
    (h : k ∉ d.map Prod.fst) : setd d k v = d ++ [(k, v)] := by
  induction d with
  | nil => rfl
  | cons kv rest ih =>
      obtain ⟨k0, v0⟩ := kv
      have hne : ¬ (k0 = k) := by
        intro hc
        exact h (by rw [List.map_cons, ← hc]; exact List.mem_cons_self _ _)
      rw [setd, if_neg hne, List.cons_append]
      congr 1
      exact ih (fun hm => h (by rw [List.map_cons]; exact List.mem_cons_of_mem _ hm))

theorem loadFold_append :
    ∀ (ens : List LessonEntry) (d : LDict),
      (ens.map LessonEntry.lesson).Nodup →
      (∀ en ∈ ens, en.lesson ∉ d.map Prod.fst) →
      (ens.map entryToRaw).foldl loadLessonStep d =
        d ++ ens.map (fun en => (en.lesson, parseFixEntry en)) := by
  intro ens
  induction ens with
  | nil => intro d _ _; simp
  | cons en rest ih =>
      intro d hnd hdis
      simp only [List.map_cons, List.foldl_cons]
      have hstep : loadLessonStep d (entryToRaw en) = d ++ [(en.lesson, parseFixEntry en)] := by
        rw [loadLessonStep, sanitize_entryToRaw]
        exact setd_append_of_not_mem _ (hdis en (List.mem_cons_self en rest))
      rw [hstep]
      have hdis' : ∀ en' ∈ rest,
          en'.lesson ∉ (d ++ [(en.lesson, parseFixEntry en)]).map Prod.fst := by
        intro en' hen' hm
        rw [List.map_append, List.mem_append] at hm
        rcases hm with hm | hm
        · exact hdis en' (List.mem_cons_of_mem _ hen') hm
        · have hle : en'.lesson = en.lesson := by simpa using hm
          have hmem : en.lesson ∈ rest.map LessonEntry.lesson :=
            hle ▸ List.mem_map_of_mem _ hen'
          exact (List.nodup_cons.mp hnd).1 hmem
      rw [ih _ (List.Nodup.of_cons hnd) hdis', List.append_assoc]
      rfl

theorem sortLessons_of_pairwise :
    ∀ {l : List LessonEntry},
      l.Pairwise (fun a b => lessonKey a ≤ lessonKey b) → sortLessons l = l := by
  intro l
  induction l with
  | nil => intro _; rfl
  | cons x xs ih =>
      intro h
      rw [List.pairwise_cons] at h
      rw [sortLessons, ih h.2]
      cases xs with
      | nil => rfl
      | cons y ys =>
          have hy : lessonKey x ≤ lessonKey y := h.1 y (List.mem_cons_self _ _)
          rw [insLesson,
            if_neg (show ¬ extract_number y.lesson < extract_number x.lesson from
              Nat.not_lt.mpr hy)]

theorem getd_map_pair_some (g : LessonEntry → LessonEntry) :
    ∀ {S : List LessonEntry} {lab : Str}, (∃ x ∈ S, x.lesson = lab) →
      ∃ y, getd (S.map (fun x => (x.lesson, g x))) lab = some y := by
  intro S
  induction S with
  | nil =>
      intro lab h
      obtain ⟨x, hx, _⟩ := h
      cases hx
  | cons x xs ih =>
      intro lab h
      by_cases hl : x.lesson = lab
      · exact ⟨g x, by rw [List.map_cons, getd, if_pos hl]⟩
      · obtain ⟨x1, hx1, hlab⟩ := h
        rcases List.mem_cons.mp hx1 with he | he
        · exact absurd (he ▸ hlab) hl
        · obtain ⟨y, hy⟩ := ih ⟨x1, he, hlab⟩
          exact ⟨y, by rw [List.map_cons, getd, if_neg hl]; exact hy⟩

theorem autoAdd_eq_of_some {d : LDict} {lab teach : Str} {en : LessonEntry}
    (h : getd d lab = some en) : autoAddCurrent d lab teach = d := by
  unfold autoAddCurrent
  rw [h]

theorem autoAdd_self_some (d : LDict) (lab teach : Str) :
    ∃ en, getd (autoAddCurrent d lab teach) lab = some en := by
  unfold autoAddCurrent
  cases hg : getd d lab with
  | some en => exact ⟨en, hg⟩
  | none => exact ⟨zeroLesson lab teach, getd_setd_self lab _ d⟩

theorem procEvent_rejected2 {exM exP : Option Val} {d : LDict} {e : Event}
    (h : rejected2 exM exP d e) :
    procEvent exM exP ⟨d, none, none⟩ e = .ok ⟨d, none, none⟩ := by
  cases hmt : e.message_type with
  | other => simp [procEvent, hmt]
  | message =>
      simp only [rejected2, hmt] at h
      simp [procEvent, hmt, h, Bind.bind, Except.bind, pure, Except.pure]
  | practice =>
      simp only [rejected2, hmt] at h
      rcases h with h | ⟨⟨bb, hbb⟩, en, hen, hgt⟩
      · simp [procEvent, hmt, h, Bind.bind, Except.bind, pure, Except.pure]
      · cases bb with
        | true => simp [procEvent, hmt, hbb, Bind.bind, Except.bind, pure, Except.pure]
        | false =>
            simp only [procEvent, hmt]
            rw [hbb, except_ok_bind]
            simp only [Bool.false_eq_true, reduceIte]
            simp only [hen]
            rw [hgt, except_ok_bind]
            simp [pure, Except.pure]

theorem procEvents_rejected2 {exM exP : Option Val} {d : LDict} :
    ∀ es : List Event, (∀ e ∈ es, rejected2 exM exP d e) →
      procEvents exM exP ⟨d, none, none⟩ es = .ok ⟨d, none, none⟩ := by
  intro es
  induction es with
  | nil => intro _; rfl
  | cons e rest ih =>
      intro h
      have h1 := procEvent_rejected2 (h e (List.mem_cons_self e rest))
      have h2 := ih (fun x hx => h x (List.mem_cons_of_mem e hx))
      rw [procEvents_cons, h1, except_ok_bind, h2]

theorem loadLessons_serialized {d : LDict} (hwf : dictWF d) :
    loadLessons ((serializeDict d).map entryToRaw) =
      (sortLessons (d.map Prod.snd)).map
        (fun x => (x.lesson, parseFixEntry (cleanLesson x))) := by
  have hmm : (serializeDict d).map entryToRaw =
      ((sortLessons (d.map Prod.snd)).map cleanLesson).map entryToRaw := rfl
  rw [loadLessons, hmm]
  have hnd : (((sortLessons (d.map Prod.snd)).map cleanLesson).map
      LessonEntry.lesson).Nodup := by
    have he : ((sortLessons (d.map Prod.snd)).map cleanLesson).map LessonEntry.lesson =
        (sortLessons (d.map Prod.snd)).map LessonEntry.lesson := by
      rw [List.map_map]
      exact List.map_congr_left (fun x _ => rfl)
    rw [he]
    exact sortLessons_labels_nodup (dictWF_values_nodup hwf)
  rw [loadFold_append _ [] hnd (fun en _ => by simp)]
  rw [List.nil_append, List.map_map]
  exact List.map_congr_left (fun x _ => rfl)

theorem getd_reload {d : LDict} (hwf : dictWF d) {lab : Str} {en : LessonEntry}
    (hen : getd d lab = some en) :
    getd (loadLessons ((serializeDict d).map entryToRaw)) lab =
      some (parseFixEntry (cleanLesson en)) := by
  have hmem : (lab, en) ∈ d := getd_mem hen
  have henv : en ∈ d.map Prod.snd := List.mem_map_of_mem Prod.snd hmem
  have hS : en ∈ sortLessons (d.map Prod.snd) := (sortLessons_perm _).mem_iff.mpr henv
  have hlab : en.lesson = lab := hwf.2 (lab, en) hmem
  have hndS : ((sortLessons (d.map Prod.snd)).map LessonEntry.lesson).Nodup :=
    sortLessons_labels_nodup (dictWF_values_nodup hwf)
  have hfr := findRaw_serialized hS hlab hndS
  have hraws : (serializeDict d).map entryToRaw =
      (sortLessons (d.map Prod.snd)).map (fun x => entryToRaw (cleanLesson x)) := by
    rw [serializeDict, List.map_map]
    rfl
  have hndraw : ((((sortLessons (d.map Prod.snd)).map
      (fun x => entryToRaw (cleanLesson x)))).map RawLesson.lesson).Nodup := by
    have := serialized_labels_nodup hwf
    rw [hraws] at this
    exact this
  rw [loadLessons, hraws, getd_loadFold lab _ [] hndraw]
  simp only [hfr]
  exact sanitize_entryToRaw _

theorem serialize_reload {d : LDict} (hwf : dictWF d) (hvw : dictValsWF d) :
    serializeDict (loadLessons ((serializeDict d).map entryToRaw)) =
      serializeDict d := by
  rw [loadLessons_serialized hwf]
  rw [serializeDict, List.map_map]
  have hsnd : (Prod.snd ∘ fun x => (x.lesson, parseFixEntry (cleanLesson x))) =
      fun x => parseFixEntry (cleanLesson x) := rfl
  rw [hsnd]
  have hpw : ((sortLessons (d.map Prod.snd)).map
      (fun x => parseFixEntry (cleanLesson x))).Pairwise
      (fun a b => lessonKey a ≤ lessonKey b) := by
    rw [List.pairwise_map]
    exact (sortLessons_pairwise (d.map Prod.snd)).imp (fun hab => hab)
  rw [sortLessons_of_pairwise hpw, List.map_map, serializeDict]
  refine List.map_congr_left ?_
  intro x hx
  have hxv : x ∈ d.map Prod.snd := (sortLessons_perm _).mem_iff.mp hx
  obtain ⟨kv, hkv, hxe⟩ := List.mem_map.mp hxv
  have hw := hvw kv hkv
  exact cleanFix_lesson (hxe ▸ hw.1) (hxe ▸ hw.2)

/-- Claim C2 (amended): merging a batch of minute-precision events (seconds
zero, as the canonical stored format carries) a second time into the record
produced by the first merge succeeds and changes nothing: the second upsert
applied to the record reproduces it exactly, so no practice count, message
count or high-water mark moves.  (For events carrying seconds the law fails
— see the counterexample: the stored marks are truncated to the minute by
`format_timestamp`, so a seconds-bearing event is re-accepted.) -/
theorem claim_C2 {first : Event} {rest : List Event} {R0 : StudentRec} {u1 : Upsert}
    (hv : ∀ e ∈ first :: rest, e.ts.Valid ∧ e.ts.sec = 0)
    (hR0 : ∀ raws, R0.lessons = some raws → ∀ raw ∈ raws, rawTimesValid raw)
    (h1 : process (first :: rest) (some R0) = .ok u1) :
    ∃ u2, process (first :: rest) (some (applyUpsert (some R0) u1)) = .ok u2 ∧
      applyUpsert (some (applyUpsert (some R0) u1)) u2 = applyUpsert (some R0) u1 := by
  obtain ⟨f1, r1, exM, exP, st1, hbe, hM, hP, hst, hu⟩ := process_ok_parts h1
  injection hbe with hf hr
  subst hf
  subst hr
  subst hu
  set d1 := autoAddCurrent st1.lessons first.lesson first.teacher with hd1
  set R1 := applyUpsert (some R0)
    { phone_number := first.phone_number
      name := first.name
      current_lesson := first.lesson
      lessons := serializeDict d1
      last_message_timedate := st1.lastMsg.map format_timestamp
      last_practice_timedate := st1.lastPrac.map format_timestamp
      is_new := (some R0).isNone } with hR1
  have hwf0 : dictWF (loadRecLessons (some R0)) := by
    cases hl : R0.lessons with
    | none =>
        simp only [loadRecLessons, hl]
        exact dictWF_nil
    | some raws =>
        simp only [loadRecLessons, hl]
        exact loadFold_dictWF raws [] dictWF_nil
  have hvw0 : dictValsWF (loadRecLessons (some R0)) := by
    cases hl : R0.lessons with
    | none =>
        simp only [loadRecLessons, hl]
        exact dictValsWF_nil
    | some raws =>
        simp only [loadRecLessons, hl]
        exact loadFold_valsWF raws [] (hR0 raws hl) dictValsWF_nil
  have hvAll : ∀ e ∈ first :: rest, e.ts.Valid := fun e he => (hv e he).1
  obtain ⟨_, _, provM, provP, _, hwfP, _, hvwP⟩ :=
    procEvents_spec (first :: rest) _ st1 hst
  have hwf1 : dictWF st1.lessons := hwfP hwf0
  have hvw1 : dictValsWF st1.lessons := hvwP hvAll hvw0
  have hwfd1 : dictWF d1 := autoAdd_dictWF _ _ hwf1
  have hvwd1 : dictValsWF d1 := autoAdd_valsWF _ _ hvw1
  have hm0 : MarkInv exM exP ⟨loadRecLessons (some R0), none, none⟩ :=
    ⟨Or.inl rfl, Or.inl rfl⟩
  have hcov := (procEvents_cover (first :: rest) _ st1 hst hm0).2
  have hfM2 : ∃ exM2, fetchMark R1.last_message_timedate = .ok exM2 ∧
      ((st1.lastMsg = none ∧ exM2 = exM) ∨
        (∃ m, st1.lastMsg = some m ∧ exM2 = some (.vDt m))) := by
    cases hm1 : st1.lastMsg with
    | none =>
        have hRl : R1.last_message_timedate = R0.last_message_timedate := by
          rw [hR1]
          simp [applyUpsert, hm1]
        rw [hRl]
        exact ⟨exM, hM, Or.inl ⟨rfl, rfl⟩⟩
    | some m =>
        have hmem : ∃ e ∈ first :: rest, m = e.ts := by
          rcases provM with hc | ⟨e, he, hts, _, _⟩
          · rw [hm1] at hc
            exact Option.noConfusion hc
          · rw [hm1] at hts
            exact ⟨e, he, Option.some.inj hts⟩
        obtain ⟨e, he, hme⟩ := hmem
        have hmv : m.Valid := hme ▸ (hv e he).1
        have hms : m.sec = 0 := hme ▸ (hv e he).2
        have hRl : R1.last_message_timedate = some (.vStr (format_timestamp m)) := by
          rw [hR1]
          simp [applyUpsert, hm1]
        rw [hRl]
        refine ⟨some (.vDt m), ?_, Or.inr ⟨m, rfl, rfl⟩⟩
        simp [fetchMark, pyTruthy_format, parse_format_sec0 hmv hms]
  have hfP2 : ∃ exP2, fetchMark R1.last_practice_timedate = .ok exP2 ∧
      ((st1.lastPrac = none ∧ exP2 = exP) ∨
        (∃ m, st1.lastPrac = some m ∧ exP2 = some (.vDt m))) := by
    cases hm1 : st1.lastPrac with
    | none =>
        have hRl : R1.last_practice_timedate = R0.last_practice_timedate := by
          rw [hR1]
          simp [applyUpsert, hm1]
        rw [hRl]
        exact ⟨exP, hP, Or.inl ⟨rfl, rfl⟩⟩
    | some m =>
        have hmem : ∃ e ∈ first :: rest, m = e.ts := by
          rcases provP with hc | ⟨e, he, hts, _, _⟩
          · rw [hm1] at hc
            exact Option.noConfusion hc
          · rw [hm1] at hts
            exact ⟨e, he, Option.some.inj hts⟩
        obtain ⟨e, he, hme⟩ := hmem
        have hmv : m.Valid := hme ▸ (hv e he).1
        have hms : m.sec = 0 := hme ▸ (hv e he).2
        have hRl : R1.last_practice_timedate = some (.vStr (format_timestamp m)) := by
          rw [hR1]
          simp [applyUpsert, hm1]
        rw [hRl]
        refine ⟨some (.vDt m), ?_, Or.inr ⟨m, rfl, rfl⟩⟩
        simp [fetchMark, pyTruthy_format, parse_format_sec0 hmv hms]
  obtain ⟨exM2, hfM2ok, hM2cases⟩ := hfM2
  obtain ⟨exP2, hfP2ok, hP2cases⟩ := hfP2
  set L2 := loadLessons ((serializeDict d1).map entryToRaw) with hL2
  have hload2 : loadRecLessons (some R1) = L2 := by
    rw [hR1, hL2]
    simp [applyUpsert, loadRecLessons]
  have hrej : ∀ e ∈ first :: rest, rejected2 exM2 exP2 L2 e := by
    intro e he
    have hcove := hcov e he
    have hts0 : e.ts.sec = 0 := (hv e he).2
    cases hmt : e.message_type with
    | other => simp [rejected2, hmt]
    | message =>
        simp only [Cover, hmt] at hcove
        simp only [rejected2, hmt]
        rcases hcove with ⟨bm, hbm, hle⟩ | ⟨hnone, hstale⟩
        · rcases hM2cases with ⟨hn, _⟩ | ⟨m, hm, hEq⟩
          · rw [hn] at hbm
            exact Option.noConfusion hbm
          · rw [hm] at hbm
            have hmb : m = bm := Option.some.inj hbm
            rw [hEq]
            have hle2 : e.ts.key ≤ m.key := by rw [hmb]; exact hle
            show Except.ok (decide (e.ts.key ≤ m.key)) = Except.ok true
            rw [decide_eq_true hle2]
        · rcases hM2cases with ⟨_, hEq⟩ | ⟨m, hm, _⟩
          · rw [hEq]
            exact hstale
          · rw [hm] at hnone
            exact Option.noConfusion hnone
    | practice =>
        simp only [Cover, hmt] at hcove
        simp only [rejected2, hmt]
        rcases hcove with ⟨bm, hbm, hle⟩ | ⟨hnone, hstale⟩ | ⟨hstf, en, dt, hget, hlast, hle⟩
        · left
          rcases hP2cases with ⟨hn, _⟩ | ⟨m, hm, hEq⟩
          · rw [hn] at hbm
            exact Option.noConfusion hbm
          · rw [hm] at hbm
            have hmb : m = bm := Option.some.inj hbm
            rw [hEq]
            have hle2 : e.ts.key ≤ m.key := by rw [hmb]; exact hle
            show Except.ok (decide (e.ts.key ≤ m.key)) = Except.ok true
            rw [decide_eq_true hle2]
        · left
          rcases hP2cases with ⟨_, hEq⟩ | ⟨m, hm, _⟩
          · rw [hEq]
            exact hstale
          · rw [hm] at hnone
            exact Option.noConfusion hnone
        · right
          refine ⟨?_, ?_⟩
          · rcases hP2cases with ⟨_, hEq⟩ | ⟨m, _, hEq⟩
            · exact ⟨false, by rw [hEq]; exact hstf⟩
            · refine ⟨decide (e.ts.key ≤ m.key), ?_⟩
              rw [hEq]
              show Except.ok (decide (e.ts.key ≤ m.key)) =
                Except.ok (decide (e.ts.key ≤ m.key))
              rfl
          · have hget1 : getd d1 e.lesson = some en := getd_autoAdd_of_some hget
            have hgl := getd_reload hwfd1 hget1
            refine ⟨parseFixEntry (cleanLesson en), hgl, ?_⟩
            have hdtv : dt.Valid := by
              have hmem := getd_mem hget1
              have hw := hvwd1 _ hmem
              exact hw.2.1 dt hlast
            have hlp : (parseFixEntry (cleanLesson en)).last_practice =
                some (.vDt dt.truncMin) := by
              show parseField (cleanVal en.last_practice) = some (.vDt dt.truncMin)
              rw [hlast]
              show parseField (some (.vStr (format_timestamp dt))) =
                some (.vDt dt.truncMin)
              have hrw : parseField (some (.vStr (format_timestamp dt))) =
                  match parse_timestamp (format_timestamp dt) with
                  | some u => some (.vDt u)
                  | none => some (.vStr (format_timestamp dt)) := rfl
              rw [hrw, parse_format hdtv]
            rw [hlp]
            have hle2 : e.ts.key ≤ dt.truncMin.key :=
              Time.le_truncMin_of_le hts0 hdtv.2.2.2.2.2.2.2.2 hle
            show Except.ok (decide (dt.truncMin.key < e.ts.key)) = Except.ok false
            rw [decide_eq_false (Nat.not_lt.mpr hle2)]
  have hproc2 : procEvents exM2 exP2 ⟨L2, none, none⟩ (first :: rest) =
      .ok ⟨L2, none, none⟩ := procEvents_rejected2 _ hrej
  obtain ⟨en1, hen1⟩ := autoAdd_self_some st1.lessons first.lesson first.teacher
  have hgl1 : getd L2 first.lesson = some (parseFixEntry (cleanLesson en1)) :=
    getd_reload hwfd1 hen1
  have hAA : autoAddCurrent L2 first.lesson first.teacher = L2 :=
    autoAdd_eq_of_some hgl1
  have hser : serializeDict L2 = serializeDict d1 := serialize_reload hwfd1 hvwd1
  refine ⟨{ phone_number := first.phone_number
            name := first.name
            current_lesson := first.lesson
            lessons := serializeDict d1
            last_message_timedate := none
            last_practice_timedate := none
            is_new := false }, ?_, ?_⟩
  · rw [process_cons]
    have hb1 : ((some R1).bind (fun r => r.last_message_timedate)) =
        R1.last_message_timedate := rfl
    have hb2 : ((some R1).bind (fun r => r.last_practice_timedate)) =
        R1.last_practice_timedate := rfl
    rw [hb1, hfM2ok, except_ok_bind, hb2, hfP2ok, except_ok_bind, hload2,
      hproc2, except_ok_bind]
    simp only [hAA, hser, Option.map_none', Option.isNone_some, pure, Except.pure]
  · rfl

/-- Witness for claim C2: the single practice event at the minute-precision
instant `10:00, 02.12.2025`, first merged into the empty record, is rejected
wholesale by a second merge, which reproduces the applied record exactly. -/
theorem claim_C2_witness :
    (∀ e ∈ [exEv "1" .practice exT1000], e.ts.Valid ∧ e.ts.sec = 0) ∧
    ∃ u2, process [exEv "1" .practice exT1000]
        (some (applyUpsert (some exRecEmpty) exU1C2)) = .ok u2 ∧
      applyUpsert (some (applyUpsert (some exRecEmpty) exU1C2)) u2 =
        applyUpsert (some exRecEmpty) exU1C2 :=
  ⟨by decide, claim_C2 (by decide)
    (fun raws h => by
      injection h with h1
      subst h1
      intro raw hraw
      cases hraw)
    (by decide)⟩

end WAStats
